import Mathlib

/-!
The string queue of `queue.c`.

A shallow embedding of `0_cprogramminglab-handout/queue.c`.

* Pointers are natural numbers and `0` is `NULL`.
* The heap is split by the type of the cell: list elements, string buffers
  and queue records each have a store (the contents of memory, which stay
  where they are when a cell is released) and a set of live allocations.
* `malloc` is not deterministic: every function that calls it takes the
  pointer that `malloc` returned as an argument (`0` when it failed).
* A C string is the list of its characters before the terminating NUL.
* `size_t` is `Nat` reduced modulo `2 ^ 64`.
* A caller buffer is the contents of memory from `buf` on, a function from
  offsets to characters; a `NULL` buffer is `none`.
* Loops take fuel and return `none` when it runs out.
-/

set_option autoImplicit false

namespace Queue

/-- Pointers; `0` is `NULL`. -/
abbrev Addr := Nat

/-- The number of values of `size_t`. -/
def SIZE_MAX1 : Nat := 2 ^ 64

/-- Modelled from the spec: the declaration of `list_ele_t` (in `queue.h`, not among the
sources): a node owns one text value and holds a reference to the next node. -/
structure list_ele_t where
  value : Addr
  next : Addr
deriving DecidableEq

/-- Modelled from the spec: the declaration of `queue_t` (in `queue.h`, not among the
sources): a reference to the first node, a reference to the last node, a count of nodes. -/
structure queue_t where
  head : Addr
  tail : Addr
  size : Nat
deriving DecidableEq

/-- The heap: the three typed stores and their live allocations. -/
structure Heap where
  recs : Addr → queue_t
  nodes : Addr → list_ele_t
  strs : Addr → List Char
  liveQ : Addr → Bool
  liveN : Addr → Bool
  liveS : Addr → Bool

/-- A heap with nothing allocated and every cell zeroed. -/
def Heap.empty : Heap where
  recs := fun _ => ⟨0, 0, 0⟩
  nodes := fun _ => ⟨0, 0⟩
  strs := fun _ => []
  liveQ := fun _ => false
  liveN := fun _ => false
  liveS := fun _ => false

/-- Writing one cell of a store. -/
def upd {α : Type} (f : Addr → α) (a : Addr) (v : α) : Addr → α :=
  fun x => if x = a then v else f x

/-- The terminator of a C string. -/
def NUL : Char := Char.ofNat 0

/-- C library `strlen`, on the characters before the terminator. -/
def strlen (s : List Char) : Nat := s.length

/-- C library `strcpy` into a fresh buffer: the characters before the terminator. -/
def strcpy (s : List Char) : List Char := s

/-- C library `strncpy(dest, src, n)`: the first `n` cells of `dest` receive the characters
of `src`, and NUL from the end of `src` on. -/
def strncpy (dest : Nat → Char) (src : List Char) (n : Nat) : Nat → Char :=
  fun i => if i < n then src.getD i NUL else dest i

/-- The function `queue_new`: `m` is what `malloc(sizeof(queue_t))` returned. -/
def queue_new (m : Addr) (h : Heap) : Addr × Heap :=
  if m ≠ 0 then
    (m, { h with liveQ := upd h.liveQ m true, recs := upd h.recs m ⟨0, 0, 0⟩ })
  else (m, h)

/-- The loop of `queue_free`, entered with `curr == q->head`. -/
def queue_free_loop (q : Addr) : Nat → Heap → Option Heap
  | 0, h => if (h.recs q).head = 0 then some h else none
  | fuel + 1, h =>
    let curr := (h.recs q).head
    if curr = 0 then some h
    else
      let h1 := { h with recs := upd h.recs q { h.recs q with head := (h.nodes curr).next } }
      let h2 := { h1 with liveS := upd h1.liveS (h1.nodes curr).value false }
      let h3 := { h2 with liveN := upd h2.liveN curr false }
      queue_free_loop q fuel h3

/-- The function `queue_free`. -/
def queue_free (fuel : Nat) (q : Addr) (h : Heap) : Option Heap :=
  if q ≠ 0 then
    (queue_free_loop q fuel h).map fun h1 => { h1 with liveQ := upd h1.liveQ q false }
  else some h

/-- The function `queue_insert_head`: `m1` is what `malloc` returned for the node and `m2`
what it returned for the copy of the string. -/
def queue_insert_head (q : Addr) (s : List Char) (m1 m2 : Addr) (h : Heap) : Bool × Heap :=
  if q = 0 then (false, h)
  else
    let newh := m1
    if newh = 0 then (false, h)
    else
      let h1 := { h with liveN := upd h.liveN newh true }
      let deepCopyString := m2
      if deepCopyString = 0 then (false, { h1 with liveN := upd h1.liveN newh false })
      else
        let h2 := { h1 with liveS := upd h1.liveS deepCopyString true }
        let h3 := { h2 with strs := upd h2.strs deepCopyString (strcpy s) }
        let h4 := { h3 with nodes := upd h3.nodes newh { h3.nodes newh with value := deepCopyString } }
        let h5 := { h4 with nodes := upd h4.nodes newh { h4.nodes newh with next := (h4.recs q).head } }
        let h6 := { h5 with recs := upd h5.recs q { h5.recs q with head := newh } }
        let h7 :=
          if (h6.recs q).tail = 0 then
            { h6 with recs := upd h6.recs q { h6.recs q with tail := (h6.recs q).head } }
          else h6
        (true, { h7 with recs := upd h7.recs q { h7.recs q with size := ((h7.recs q).size + 1) % SIZE_MAX1 } })

/-- The function `queue_insert_tail`: `m1` is what `malloc` returned for the node and `m2`
what it returned for the copy of the string. -/
def queue_insert_tail (q : Addr) (s : List Char) (m1 m2 : Addr) (h : Heap) : Bool × Heap :=
  if q = 0 then (false, h)
  else
    let newh := m1
    if newh = 0 then (false, h)
    else
      let h1 := { h with liveN := upd h.liveN newh true }
      let deepCopyString := m2
      if deepCopyString = 0 then (false, { h1 with liveN := upd h1.liveN newh false })
      else
        let h2 := { h1 with liveS := upd h1.liveS deepCopyString true }
        let h3 := { h2 with strs := upd h2.strs deepCopyString (strcpy s) }
        let h4 := { h3 with nodes := upd h3.nodes newh { h3.nodes newh with value := deepCopyString } }
        let h5 := { h4 with nodes := upd h4.nodes newh { h4.nodes newh with next := 0 } }
        let h6 :=
          if (h5.recs q).head = 0 then
            let h5a := { h5 with recs := upd h5.recs q { h5.recs q with head := newh } }
            { h5a with recs := upd h5a.recs q { h5a.recs q with tail := newh } }
          else
            let t := (h5.recs q).tail
            let h5a := { h5 with nodes := upd h5.nodes t { h5.nodes t with next := newh } }
            { h5a with recs := upd h5a.recs q { h5a.recs q with tail := newh } }
        (true, { h6 with recs := upd h6.recs q { h6.recs q with size := ((h6.recs q).size + 1) % SIZE_MAX1 } })

/-- The function `min` of `queue.c`. -/
def min (a b : Nat) : Nat := if a > b then b else a

/-- The function `queue_remove_head`: returns the result, the heap and the buffer. -/
def queue_remove_head (q : Addr) (buf : Option (Nat → Char)) (bufsize : Nat) (h : Heap) :
    Bool × Heap × Option (Nat → Char) :=
  if q = 0 ∨ (h.recs q).head = 0 then (false, h, buf)
  else
    let oldhead := (h.recs q).head
    let buf1 :=
      match buf with
      | some b =>
        let n := Queue.min (strlen (h.strs (h.nodes (h.recs q).head).value))
          ((bufsize + (SIZE_MAX1 - 1)) % SIZE_MAX1)
        some (upd (strncpy b (h.strs (h.nodes (h.recs q).head).value) n) n NUL)
      | none => none
    let h1 := { h with recs := upd h.recs q { h.recs q with head := (h.nodes (h.recs q).head).next } }
    let h2 := { h1 with recs := upd h1.recs q { h1.recs q with size := ((h1.recs q).size + (SIZE_MAX1 - 1)) % SIZE_MAX1 } }
    let h3 := { h2 with liveS := upd h2.liveS (h2.nodes oldhead).value false }
    let h4 := { h3 with liveN := upd h3.liveN oldhead false }
    (true, h4, buf1)

/-- The function `queue_size`. -/
def queue_size (q : Addr) (h : Heap) : Nat :=
  if q = 0 ∨ (h.recs q).head = 0 then 0 else (h.recs q).size

/-- The loop of `queue_reverse`: returns the node store and the final `prev`. -/
def queue_reverse_loop : Nat → (Addr → list_ele_t) → Addr → Addr →
    Option ((Addr → list_ele_t) × Addr)
  | 0, nodes, prev, curr => if curr = 0 then some (nodes, prev) else none
  | fuel + 1, nodes, prev, curr =>
    if curr = 0 then some (nodes, prev)
    else
      let next := (nodes curr).next
      queue_reverse_loop fuel (upd nodes curr { nodes curr with next := prev }) curr next

/-- The function `queue_reverse`. -/
def queue_reverse (fuel : Nat) (q : Addr) (h : Heap) : Option Heap :=
  if q = 0 ∨ (h.recs q).head = 0 then some h
  else
    let prev := 0
    let curr := (h.recs q).head
    let h1 := { h with recs := upd h.recs q { h.recs q with tail := curr } }
    (queue_reverse_loop fuel h1.nodes prev curr).map fun r =>
      { h1 with nodes := r.1, recs := upd h1.recs q { h1.recs q with head := r.2 } }

/-- Following `next` from `p` visits exactly the nodes of `l`, in order, and then reaches
`NULL`. -/
def Chain (nodes : Addr → list_ele_t) : Addr → List Addr → Prop
  | p, [] => p = 0
  | p, a :: l => p = a ∧ a ≠ 0 ∧ Chain nodes (nodes a).next l

instance Chain.decidable (nodes : Addr → list_ele_t) :
    ∀ (p : Addr) (l : List Addr), Decidable (Chain nodes p l)
  | p, [] => inferInstanceAs (Decidable (p = 0))
  | p, a :: l =>
    have : Decidable (Chain nodes (nodes a).next l) := Chain.decidable nodes _ l
    inferInstanceAs (Decidable (p = a ∧ a ≠ 0 ∧ Chain nodes (nodes a).next l))

/-- The strings that the nodes of `l` point to. -/
def values (h : Heap) (l : List Addr) : List (List Char) :=
  l.map fun a => h.strs (h.nodes a).value

/-- The sequence of values read from the head of `q` by following `next` is `vs`. -/
def IsSeq (q : Addr) (h : Heap) (vs : List (List Char)) : Prop :=
  ∃ l, Chain h.nodes (h.recs q).head l ∧ values h l = vs

/-- What `malloc` may return: `NULL`, or a cell that is not live. -/
def MallocOk (live : Addr → Bool) (m : Addr) : Prop := m = 0 ∨ live m = false

/-- The heaps reachable from `queue_new` returning `q` by the four mutating operations,
with every `malloc` free to fail. -/
inductive Reachable (q : Addr) : Heap → Prop
  | new (h0 : Heap) (hq : q ≠ 0)
      (hQ : ∀ a, h0.liveQ a = false) (hN : ∀ a, h0.liveN a = false)
      (hS : ∀ a, h0.liveS a = false) : Reachable q (queue_new q h0).2
  | insert_head (h : Heap) (s : List Char) (m1 m2 : Addr) (hr : Reachable q h)
      (h1 : MallocOk h.liveN m1) (h2 : MallocOk h.liveS m2) :
      Reachable q (queue_insert_head q s m1 m2 h).2
  | insert_tail (h : Heap) (s : List Char) (m1 m2 : Addr) (hr : Reachable q h)
      (h1 : MallocOk h.liveN m1) (h2 : MallocOk h.liveS m2) :
      Reachable q (queue_insert_tail q s m1 m2 h).2
  | remove_head (h : Heap) (buf : Option (Nat → Char)) (bufsize : Nat)
      (hr : Reachable q h) : Reachable q (queue_remove_head q buf bufsize h).2.1
  | reverse (h h1 : Heap) (fuel : Nat) (hr : Reachable q h)
      (hrev : queue_reverse fuel q h = some h1) : Reachable q h1

/-- A run: a queue at `100`. -/
def run0 : Heap := (queue_new 100 Heap.empty).2

/-- A run: `"a"` inserted at the head, node `1`, string `2`. -/
def run1 : Bool × Heap := queue_insert_head 100 "a".toList 1 2 run0

/-- A run: the only element removed, no buffer. -/
def run2 : Bool × Heap × Option (Nat → Char) := queue_remove_head 100 none 0 run1.2

/-- A run: `"b"` inserted at the head, node `3`, string `4`. -/
def run3 : Bool × Heap := queue_insert_head 100 "b".toList 3 4 run2.2.1

/-- A run: `"c"` inserted at the tail, node `5`, string `6`. -/
def run4 : Bool × Heap := queue_insert_tail 100 "c".toList 5 6 run3.2

/-- A run: the head removed, no buffer. -/
def run5 : Bool × Heap × Option (Nat → Char) := queue_remove_head 100 none 0 run4.2

/-- The chain from the head is finite and made of live nodes. -/
def ChainInv (q : Addr) (h : Heap) : Prop :=
  ∃ l, Chain h.nodes (h.recs q).head l ∧ ∀ a ∈ l, h.liveN a = true

/-- The string stored for the first node of `q`. -/
def headValue (q : Addr) (h : Heap) : List Char :=
  h.strs (h.nodes (h.recs q).head).value

/-- The C string found in a buffer from offset `i` on: the characters before the first
terminator, `none` when there is none within `fuel` cells. -/
def readCStr (b : Nat → Char) : Nat → Nat → Option (List Char)
  | 0, _ => none
  | fuel + 1, i => if b i = NUL then some [] else (readCStr b fuel (i + 1)).map (b i :: ·)

/-- A second run: `"x"` inserted at the tail, node `1`, string `2`. -/
def runB1 : Bool × Heap := queue_insert_tail 100 "x".toList 1 2 run0

/-- A second run: the only element removed, no buffer. -/
def runB2 : Bool × Heap × Option (Nat → Char) := queue_remove_head 100 none 0 runB1.2

/-- A second run: `"y"` inserted at the head, node `3`, string `4`. -/
def runB3 : Bool × Heap := queue_insert_head 100 "y".toList 3 4 runB2.2.1

/-- A second run: `"z"` inserted at the head; `malloc` hands out again the cells `1` and
`2` that `runB2` released. -/
def runB4 : Bool × Heap := queue_insert_head 100 "z".toList 1 2 runB3.2

/-- A second run: `"w"` inserted at the tail, node `5`, string `6`. -/
def runB5 : Bool × Heap := queue_insert_tail 100 "w".toList 5 6 runB4.2

/-- A second run: the head removed, no buffer. -/
def runB6 : Bool × Heap × Option (Nat → Char) := queue_remove_head 100 none 0 runB5.2

/-- A second run: the head removed, no buffer. -/
def runB7 : Bool × Heap × Option (Nat → Char) := queue_remove_head 100 none 0 runB6.2.1

/-- The scenario of the specification: `"a"` inserted at the tail. -/
def scen1 : Bool × Heap := queue_insert_tail 100 "a".toList 1 2 run0

/-- The scenario of the specification: `"b"` inserted at the tail. -/
def scen2 : Bool × Heap := queue_insert_tail 100 "b".toList 3 4 scen1.2

/-- The scenario of the specification: `"c"` inserted at the head. -/
def scen3 : Bool × Heap := queue_insert_head 100 "c".toList 5 6 scen2.2

/-- The scenario of the specification: the queue reversed. -/
def scen4 : Heap := (queue_reverse 3 100 scen3.2).getD scen3.2

/-- The scenario of the specification: the head removed into a buffer of size `10`. -/
def scen5 : Bool × Heap × Option (Nat → Char) :=
  queue_remove_head 100 (some fun _ => '#') 10 scen4

/-- Every live node owns a live string, and no two live nodes own the same string. -/
def OwnInv (h : Heap) : Prop :=
  (∀ a, h.liveN a = true → h.liveS (h.nodes a).value = true) ∧
    ∀ a b, h.liveN a = true → h.liveN b = true → (h.nodes a).value = (h.nodes b).value → a = b

/-- The heaps reachable from `queue_new` returning `q` by `queue_insert_tail`,
`queue_remove_head` and `queue_reverse` only, with every `malloc` free to fail; a node
pointer is a 64-bit value. -/
inductive ReachableTail (q : Addr) : Heap → Prop
  | new (h0 : Heap) (hq : q ≠ 0)
      (hQ : ∀ a, h0.liveQ a = false) (hN : ∀ a, h0.liveN a = false)
      (hS : ∀ a, h0.liveS a = false) : ReachableTail q (queue_new q h0).2
  | insert_tail (h : Heap) (s : List Char) (m1 m2 : Addr) (hr : ReachableTail q h)
      (h1 : MallocOk h.liveN m1) (h2 : MallocOk h.liveS m2) (hp : m1 < SIZE_MAX1) :
      ReachableTail q (queue_insert_tail q s m1 m2 h).2
  | remove_head (h : Heap) (buf : Option (Nat → Char)) (bufsize : Nat)
      (hr : ReachableTail q h) : ReachableTail q (queue_remove_head q buf bufsize h).2.1
  | reverse (h h1 : Heap) (fuel : Nat) (hr : ReachableTail q h)
      (hrev : queue_reverse fuel q h = some h1) : ReachableTail q h1

/-- The chain from the head has `size` live nodes and, when it is not empty, ends at
`tail`. -/
def TailInv (q : Addr) (h : Heap) : Prop :=
  ∃ l, Chain h.nodes (h.recs q).head l ∧ l.length = (h.recs q).size ∧
    (∀ a ∈ l, h.liveN a = true ∧ a < SIZE_MAX1) ∧ (l ≠ [] → l.getLast? = some (h.recs q).tail)

/-- The list elements that `queue_insert_tail` dereferences: `newh` (lines 122 and 123)
and, when the queue is not empty, `q->tail` (line 128); they are dereferenced after the
`malloc` of `newh`. -/
def queue_insert_tail_touches (q : Addr) (m1 m2 : Addr) (h : Heap) : List Addr :=
  if q = 0 ∨ m1 = 0 ∨ m2 = 0 then []
  else if (h.recs q).head = 0 then [m1] else [m1, (h.recs q).tail]

/-- The list elements that `queue_remove_head` dereferences: `q->head`, alias `oldhead`
(lines 162, 163, 166 and 168), before it releases it. -/
def queue_remove_head_touches (q : Addr) (h : Heap) : List Addr :=
  if q = 0 ∨ (h.recs q).head = 0 then [] else [(h.recs q).head]

/-- The list elements that the loop of `queue_reverse` dereferences: `curr` in every
iteration (lines 208 and 209). -/
def queue_reverse_loop_touches : Nat → (Addr → list_ele_t) → Addr → Addr → List Addr
  | 0, _, _, _ => []
  | fuel + 1, nodes, prev, curr =>
    if curr = 0 then []
    else
      let next := (nodes curr).next
      curr :: queue_reverse_loop_touches fuel (upd nodes curr { nodes curr with next := prev })
        curr next

/-- The list elements that `queue_reverse` dereferences. -/
def queue_reverse_touches (fuel : Nat) (q : Addr) (h : Heap) : List Addr :=
  if q = 0 ∨ (h.recs q).head = 0 then []
  else queue_reverse_loop_touches fuel h.nodes 0 (h.recs q).head

/-- A run: the queue of `run3`, refilled after a removal has emptied it, reversed. -/
def run3rev : Option Heap := queue_reverse 1 100 run3.2

/-- A second run: the queue of `runB4` reversed. -/
def runB4rev : Option Heap := queue_reverse 2 100 runB4.2

/-- The scenario of the specification: the head removed into a buffer said to have size
`0`. -/
def scen5zero : Bool × Heap × Option (Nat → Char) :=
  queue_remove_head 100 (some fun _ => '#') 0 scen4

/-! ## Stores and chains -/

theorem upd_same {α : Type} (f : Addr → α) (a : Addr) (v : α) : upd f a v a = v := by
  simp [upd]

theorem upd_other {α : Type} (f : Addr → α) {a x : Addr} (v : α) (hx : x ≠ a) :
    upd f a v x = f x := by
  simp [upd, hx]

theorem upd_cancel (f : Addr → Bool) (a : Addr) (hf : f a = false) :
    upd (upd f a true) a false = f := by
  funext x
  by_cases hx : x = a
  · subst hx; simp [upd, hf]
  · simp [upd, hx]

theorem chain_zero {nodes : Addr → list_ele_t} {l : List Addr} (h : Chain nodes 0 l) :
    l = [] := by
  cases l with
  | nil => rfl
  | cons a l => exact absurd h.1.symm h.2.1

theorem chain_unique {nodes : Addr → list_ele_t} :
    ∀ {l1 l2 : List Addr} {p : Addr}, Chain nodes p l1 → Chain nodes p l2 → l1 = l2
  | [], [], _, _, _ => rfl
  | [], b :: l2, p, h1, h2 => by
    have h1 : p = 0 := h1
    exact absurd (h1 ▸ h2.1).symm h2.2.1
  | a :: l1, [], p, h1, h2 => by
    have h2 : p = 0 := h2
    exact absurd (h2 ▸ h1.1).symm h1.2.1
  | a :: l1, b :: l2, p, h1, h2 => by
    obtain ⟨e1, _, c1⟩ := h1
    obtain ⟨e2, _, c2⟩ := h2
    subst e1; subst e2
    rw [chain_unique c1 c2]

/-- A chain only depends on the `next` fields of its own nodes. -/
theorem chain_congr {n1 n2 : Addr → list_ele_t} :
    ∀ {l : List Addr} {p : Addr}, Chain n1 p l → (∀ a ∈ l, (n2 a).next = (n1 a).next) →
      Chain n2 p l
  | [], _, h, _ => h
  | a :: l, p, h, hs => by
    refine ⟨h.1, h.2.1, ?_⟩
    rw [hs a (List.mem_cons_self a l)]
    exact chain_congr h.2.2 (fun x hx => hs x (List.mem_cons_of_mem a hx))

/-- From a member of a chain the rest of the chain is a chain. -/
theorem chain_split {nodes : Addr → list_ele_t} :
    ∀ {l : List Addr} {p a : Addr}, Chain nodes p l → a ∈ l →
      ∃ l1 l2, l = l1 ++ a :: l2 ∧ Chain nodes a (a :: l2)
  | [], _, _, _, hm => by cases hm
  | b :: l, p, a, h, hm => by
    by_cases hab : a = b
    · subst hab
      exact ⟨[], l, rfl, rfl, h.2.1, h.2.2⟩
    · have hm1 : a ∈ l := by
        cases hm with
        | head => exact absurd rfl hab
        | tail _ hx => exact hx
      obtain ⟨l1, l2, e, c⟩ := chain_split h.2.2 hm1
      exact ⟨b :: l1, l2, by rw [e]; rfl, c⟩

theorem chain_head_not_mem {nodes : Addr → list_ele_t} {l : List Addr} {p a : Addr}
    (h : Chain nodes p (a :: l)) : a ∉ l := by
  intro hm
  obtain ⟨l1, l2, e, c⟩ := chain_split h.2.2 hm
  have h1 : Chain nodes a (a :: l) := ⟨rfl, h.2.1, h.2.2⟩
  have e2 := chain_unique h1 c
  have hl : (a :: l).length = (a :: l2).length := by rw [e2]
  rw [e] at hl
  simp at hl
  omega

theorem chain_nodup {nodes : Addr → list_ele_t} :
    ∀ {l : List Addr} {p : Addr}, Chain nodes p l → l.Nodup
  | [], _, _ => List.nodup_nil
  | _ :: _, _, h => List.nodup_cons.mpr ⟨chain_head_not_mem h, chain_nodup h.2.2⟩

/-- The loop of `queue_reverse` on a chain `l` from `curr`, with a chain `lp` from `prev`. -/
theorem queue_reverse_loop_spec :
    ∀ (l : List Addr) (nodes : Addr → list_ele_t) (prev curr : Addr) (lp : List Addr)
      (fuel : Nat), Chain nodes curr l → Chain nodes prev lp → (∀ a ∈ l, a ∉ lp) →
      l.length ≤ fuel →
      ∃ n1, queue_reverse_loop fuel nodes prev curr = some (n1, (l.reverse ++ lp).headD 0) ∧
        Chain n1 ((l.reverse ++ lp).headD 0) (l.reverse ++ lp) ∧
        (∀ a, (n1 a).value = (nodes a).value) ∧ (∀ a, a ∉ l → n1 a = nodes a)
  | [], nodes, prev, curr, lp, fuel, hc, hp, _, _ => by
    have hc0 : curr = 0 := hc
    have hhd : ([].reverse ++ lp).headD 0 = prev := by
      cases lp with
      | nil => exact (show prev = 0 from hp).symm
      | cons b lp => exact hp.1.symm
    refine ⟨nodes, ?_, ?_, fun _ => rfl, fun _ _ => rfl⟩
    · rw [hhd]
      cases fuel <;> simp [queue_reverse_loop, hc0]
    · rw [hhd]; simpa using hp
  | c :: l, nodes, prev, curr, lp, fuel, hc, hp, hd, hf => by
    obtain ⟨e, hc0, hrest⟩ := hc
    subst e
    have hcl : curr ∉ l := chain_head_not_mem (show Chain nodes curr (curr :: l) from ⟨rfl, hc0, hrest⟩)
    have hclp : curr ∉ lp := hd curr (List.mem_cons_self _ _)
    obtain ⟨fuel, rfl⟩ : ∃ k, fuel = k + 1 := ⟨fuel - 1, by simp at hf; omega⟩
    have hc1 : Chain (upd nodes curr { nodes curr with next := prev }) (nodes curr).next l :=
      chain_congr hrest (fun a ha => by
        rw [upd_other]; rintro rfl; exact hcl ha)
    have hp1 : Chain (upd nodes curr { nodes curr with next := prev }) curr (curr :: lp) := by
      refine ⟨rfl, hc0, ?_⟩
      rw [upd_same]
      exact chain_congr hp (fun a ha => by
        rw [upd_other]; rintro rfl; exact hclp ha)
    have hd1 : ∀ a ∈ l, a ∉ curr :: lp := by
      intro a ha hm
      cases hm with
      | head => exact hcl ha
      | tail _ hx => exact hd a (List.mem_cons_of_mem _ ha) hx
    obtain ⟨n1, hrun, hch, hval, hfr⟩ :=
      queue_reverse_loop_spec l _ curr (nodes curr).next (curr :: lp) fuel hc1 hp1 hd1
        (by simp at hf; omega)
    have hl : (curr :: l).reverse ++ lp = l.reverse ++ curr :: lp := by simp
    refine ⟨n1, ?_, ?_, ?_, ?_⟩
    · rw [hl]
      simp only [queue_reverse_loop, if_neg hc0]
      exact hrun
    · rw [hl]; exact hch
    · intro a
      rw [hval a]
      by_cases ha : a = curr
      · subst ha; rw [upd_same]
      · rw [upd_other _ _ ha]
    · intro a ha
      have ha1 : a ≠ curr := fun e => ha (e ▸ List.mem_cons_self _ _)
      rw [hfr a (fun hm => ha (List.mem_cons_of_mem _ hm)), upd_other _ _ ha1]

/-! ## The operations -/

theorem upd_upd {α : Type} (f : Addr → α) (a : Addr) (v w : α) :
    upd (upd f a v) a w = upd f a w := by
  funext x
  by_cases hx : x = a <;> simp [upd, hx]

theorem queue_insert_head_ok (q : Addr) (s : List Char) (m1 m2 : Addr) (h : Heap)
    (hq : q ≠ 0) (h1 : m1 ≠ 0) (h2 : m2 ≠ 0) :
    queue_insert_head q s m1 m2 h = (true,
      { recs := upd h.recs q
          ⟨m1, if (h.recs q).tail = 0 then m1 else (h.recs q).tail,
            ((h.recs q).size + 1) % SIZE_MAX1⟩
        nodes := upd h.nodes m1 ⟨m2, (h.recs q).head⟩
        strs := upd h.strs m2 s
        liveQ := h.liveQ
        liveN := upd h.liveN m1 true
        liveS := upd h.liveS m2 true }) := by
  simp only [queue_insert_head, if_neg hq, if_neg h1, if_neg h2, strcpy, upd_same, upd_upd]
  by_cases ht : (h.recs q).tail = 0
  · simp [ht, upd_same, upd_upd]
  · simp [ht, upd_same, upd_upd]

theorem queue_insert_tail_ok (q : Addr) (s : List Char) (m1 m2 : Addr) (h : Heap)
    (hq : q ≠ 0) (h1 : m1 ≠ 0) (h2 : m2 ≠ 0) :
    queue_insert_tail q s m1 m2 h = (true,
      if (h.recs q).head = 0 then
        { recs := upd h.recs q ⟨m1, m1, ((h.recs q).size + 1) % SIZE_MAX1⟩
          nodes := upd h.nodes m1 ⟨m2, 0⟩
          strs := upd h.strs m2 s
          liveQ := h.liveQ
          liveN := upd h.liveN m1 true
          liveS := upd h.liveS m2 true }
      else
        { recs := upd h.recs q ⟨(h.recs q).head, m1, ((h.recs q).size + 1) % SIZE_MAX1⟩
          nodes := upd (upd h.nodes m1 ⟨m2, 0⟩) (h.recs q).tail
            ⟨(upd h.nodes m1 ⟨m2, 0⟩ (h.recs q).tail).value, m1⟩
          strs := upd h.strs m2 s
          liveQ := h.liveQ
          liveN := upd h.liveN m1 true
          liveS := upd h.liveS m2 true }) := by
  simp only [queue_insert_tail, if_neg hq, if_neg h1, if_neg h2, strcpy, upd_same, upd_upd]
  by_cases ht : (h.recs q).head = 0
  · simp [ht, upd_same, upd_upd]
  · simp [ht, upd_same, upd_upd]

theorem queue_insert_head_fail (q : Addr) (s : List Char) (m1 m2 : Addr) (h : Heap)
    (hm : MallocOk h.liveN m1) (hf : q = 0 ∨ m1 = 0 ∨ m2 = 0) :
    queue_insert_head q s m1 m2 h = (false, h) := by
  by_cases hq : q = 0
  · simp [queue_insert_head, hq]
  by_cases h1 : m1 = 0
  · simp [queue_insert_head, h1]
  have h2 : m2 = 0 := by tauto
  have hl : h.liveN m1 = false := hm.resolve_left h1
  simp only [queue_insert_head, if_neg hq, if_neg h1, h2, if_true, upd_cancel _ _ hl]

theorem queue_insert_tail_fail (q : Addr) (s : List Char) (m1 m2 : Addr) (h : Heap)
    (hm : MallocOk h.liveN m1) (hf : q = 0 ∨ m1 = 0 ∨ m2 = 0) :
    queue_insert_tail q s m1 m2 h = (false, h) := by
  by_cases hq : q = 0
  · simp [queue_insert_tail, hq]
  by_cases h1 : m1 = 0
  · simp [queue_insert_tail, h1]
  have h2 : m2 = 0 := by tauto
  have hl : h.liveN m1 = false := hm.resolve_left h1
  simp only [queue_insert_tail, if_neg hq, if_neg h1, h2, if_true, upd_cancel _ _ hl]

theorem queue_remove_head_ok (q : Addr) (buf : Option (Nat → Char)) (c : Nat) (h : Heap)
    (hq : q ≠ 0) (hh : (h.recs q).head ≠ 0) :
    (queue_remove_head q buf c h).1 = true ∧
    (queue_remove_head q buf c h).2.1 =
      { recs := upd h.recs q ⟨(h.nodes (h.recs q).head).next, (h.recs q).tail,
          ((h.recs q).size + (SIZE_MAX1 - 1)) % SIZE_MAX1⟩
        nodes := h.nodes
        strs := h.strs
        liveQ := h.liveQ
        liveN := upd h.liveN (h.recs q).head false
        liveS := upd h.liveS (h.nodes (h.recs q).head).value false } := by
  have hn : ¬ (q = 0 ∨ (h.recs q).head = 0) := by tauto
  simp only [queue_remove_head, if_neg hn, upd_same, upd_upd]
  exact ⟨trivial, trivial⟩

theorem queue_remove_head_fail (q : Addr) (buf : Option (Nat → Char)) (c : Nat) (h : Heap)
    (hf : q = 0 ∨ (h.recs q).head = 0) :
    queue_remove_head q buf c h = (false, h, buf) := by
  simp only [queue_remove_head, if_pos hf]

/-! ## The chain from the head in reachable heaps -/

theorem queue_reverse_loop_fuel :
    ∀ (l : List Addr) (nodes : Addr → list_ele_t) (prev curr : Addr) (fuel : Nat)
      (r : (Addr → list_ele_t) × Addr), Chain nodes curr l →
      queue_reverse_loop fuel nodes prev curr = some r → l.length ≤ fuel
  | [], _, _, _, _, _, _, _ => Nat.zero_le _
  | c :: l, nodes, prev, curr, fuel, r, hc, hr => by
    obtain ⟨e, hc0, hrest⟩ := hc
    subst e
    have hcl : curr ∉ l := chain_head_not_mem (show Chain nodes curr (curr :: l) from ⟨rfl, hc0, hrest⟩)
    cases fuel with
    | zero => simp [queue_reverse_loop, hc0] at hr
    | succ fuel =>
      simp only [queue_reverse_loop, if_neg hc0] at hr
      have hc1 : Chain (upd nodes curr { nodes curr with next := prev }) (nodes curr).next l :=
        chain_congr hrest (fun a ha => by
          rw [upd_other]; rintro rfl; exact hcl ha)
      have := queue_reverse_loop_fuel l _ curr (nodes curr).next fuel r hc1 hr
      simp; omega

/-- Linking a new last node after a member `t` of a chain cuts the chain after `t`. -/
theorem chain_relink {n1 n2 : Addr → list_ele_t} {t m : Addr} {l2 : List Addr} :
    ∀ {l1 : List Addr} {p : Addr}, Chain n1 p (l1 ++ t :: l2) →
      (∀ a ∈ l1, (n2 a).next = (n1 a).next) → (n2 t).next = m → (n2 m).next = 0 → m ≠ 0 →
      Chain n2 p (l1 ++ [t, m])
  | [], _, h, _, ht, hm, hm0 => by
    refine ⟨h.1, h.2.1, ?_⟩
    rw [ht]
    exact ⟨rfl, hm0, hm⟩
  | a :: l1, p, h, hs, ht, hm, hm0 => by
    refine ⟨h.1, h.2.1, ?_⟩
    rw [hs a (List.mem_cons_self a l1)]
    exact chain_relink h.2.2 (fun x hx => hs x (List.mem_cons_of_mem a hx)) ht hm hm0

theorem chainInv_new (q : Addr) (h0 : Heap) (hq : q ≠ 0) : ChainInv q (queue_new q h0).2 := by
  refine ⟨[], ?_, fun a ha => by cases ha⟩
  simp [queue_new, hq, Chain, upd_same]

theorem chainInv_insert_head (q : Addr) (s : List Char) (m1 m2 : Addr) (h : Heap)
    (hq : q ≠ 0) (hi : ChainInv q h) (hm : MallocOk h.liveN m1) :
    ChainInv q (queue_insert_head q s m1 m2 h).2 := by
  by_cases hf : m1 = 0 ∨ m2 = 0
  · rw [queue_insert_head_fail q s m1 m2 h hm (Or.inr hf)]; exact hi
  have h1 : m1 ≠ 0 := fun e => hf (Or.inl e)
  have h2 : m2 ≠ 0 := fun e => hf (Or.inr e)
  rw [queue_insert_head_ok q s m1 m2 h hq h1 h2]
  obtain ⟨l, hc, hl⟩ := hi
  have hfresh : h.liveN m1 = false := hm.resolve_left h1
  have hnm : m1 ∉ l := fun hmem => by simpa [hfresh] using hl m1 hmem
  refine ⟨m1 :: l, ?_, ?_⟩
  · simp only [upd_same]
    refine ⟨rfl, h1, ?_⟩
    simp only [upd_same]
    exact chain_congr hc (fun a ha => by
      rw [upd_other]; rintro rfl; exact hnm ha)
  · intro a ha
    by_cases e : a = m1
    · subst e; simp only [upd_same]
    · simp only [upd_other _ _ e]
      cases ha with
      | head => exact absurd rfl e
      | tail _ hx => exact hl a hx

theorem chainInv_insert_tail (q : Addr) (s : List Char) (m1 m2 : Addr) (h : Heap)
    (hq : q ≠ 0) (hi : ChainInv q h) (hm : MallocOk h.liveN m1) :
    ChainInv q (queue_insert_tail q s m1 m2 h).2 := by
  by_cases hf : m1 = 0 ∨ m2 = 0
  · rw [queue_insert_tail_fail q s m1 m2 h hm (Or.inr hf)]; exact hi
  have h1 : m1 ≠ 0 := fun e => hf (Or.inl e)
  have h2 : m2 ≠ 0 := fun e => hf (Or.inr e)
  rw [queue_insert_tail_ok q s m1 m2 h hq h1 h2]
  obtain ⟨l, hc, hl⟩ := hi
  have hfresh : h.liveN m1 = false := hm.resolve_left h1
  have hnm : m1 ∉ l := fun hmem => by simpa [hfresh] using hl m1 hmem
  have hlive : ∀ a ∈ l, upd h.liveN m1 true a = true := fun a ha => by
    by_cases e : a = m1
    · subst e; simp only [upd_same]
    · simp only [upd_other _ _ e]; exact hl a ha
  by_cases hh : (h.recs q).head = 0
  · simp only [if_pos hh]
    refine ⟨[m1], ?_, ?_⟩
    · simp only [upd_same]
      refine ⟨rfl, h1, ?_⟩
      simp only [upd_same]
      rfl
    · intro a ha
      have e : a = m1 := by simpa using ha
      subst e; simp only [upd_same]
  · simp only [if_neg hh]
    by_cases ht : (h.recs q).tail ∈ l
    · obtain ⟨l1, l2, e, _⟩ := chain_split hc ht
      have hnd : (l1 ++ (h.recs q).tail :: l2).Nodup := e ▸ chain_nodup hc
      have htl1 : (h.recs q).tail ∉ l1 := fun hx => by
        have := (List.nodup_append.mp hnd).2.2
        exact this hx (List.mem_cons_self _ _)
      have htm : (h.recs q).tail ≠ m1 := fun e1 => hnm (e1 ▸ ht)
      refine ⟨l1 ++ [(h.recs q).tail, m1], ?_, ?_⟩
      · simp only [upd_same]
        refine chain_relink (e ▸ hc) ?_ ?_ ?_ h1
        · intro a ha
          have ha1 : a ≠ (h.recs q).tail := fun e1 => htl1 (e1 ▸ ha)
          have ha2 : a ≠ m1 := fun e1 => hnm (by rw [e]; exact List.mem_append_left _ (e1 ▸ ha))
          rw [upd_other _ _ ha1, upd_other _ _ ha2]
        · rw [upd_same]
        · rw [upd_other _ _ (Ne.symm htm), upd_same]
      · intro a ha
        rcases List.mem_append.mp ha with ha | ha
        · exact hlive a (by rw [e]; exact List.mem_append_left _ ha)
        · have : a = (h.recs q).tail ∨ a = m1 := by simpa using ha
          rcases this with e1 | e1
          · rw [e1]; exact hlive _ ht
          · rw [e1]; simp only [upd_same]
    · refine ⟨l, ?_, hlive⟩
      simp only [upd_same]
      exact chain_congr hc (fun a ha => by
        have ha1 : a ≠ (h.recs q).tail := fun e1 => ht (e1 ▸ ha)
        have ha2 : a ≠ m1 := fun e1 => hnm (e1 ▸ ha)
        rw [upd_other _ _ ha1, upd_other _ _ ha2])

theorem chainInv_remove_head (q : Addr) (buf : Option (Nat → Char)) (c : Nat) (h : Heap)
    (hq : q ≠ 0) (hi : ChainInv q h) : ChainInv q (queue_remove_head q buf c h).2.1 := by
  by_cases hh : (h.recs q).head = 0
  · rw [queue_remove_head_fail q buf c h (Or.inr hh)]; exact hi
  rw [(queue_remove_head_ok q buf c h hq hh).2]
  obtain ⟨l, hc, hl⟩ := hi
  cases l with
  | nil => exact absurd hc hh
  | cons a l =>
    have ha : (h.recs q).head = a := hc.1
    have hnm : a ∉ l := chain_head_not_mem hc
    refine ⟨l, ?_, ?_⟩
    · simp only [upd_same, ha]
      exact hc.2.2
    · intro x hx
      have e : x ≠ (h.recs q).head := fun e1 => hnm (ha ▸ e1 ▸ hx)
      simp only [upd_other _ _ e]
      exact hl x (List.mem_cons_of_mem _ hx)

theorem queue_reverse_noop (fuel : Nat) (q : Addr) (h : Heap)
    (he : q = 0 ∨ (h.recs q).head = 0) : queue_reverse fuel q h = some h := by
  simp only [queue_reverse, if_pos he]

/-- The function `queue_reverse` on a heap whose chain from the head is `l`. -/
theorem queue_reverse_chain (q : Addr) (h : Heap) (l : List Addr) (fuel : Nat) (hq : q ≠ 0)
    (hc : Chain h.nodes (h.recs q).head l) (hf : l.length ≤ fuel) :
    ∃ h1, queue_reverse fuel q h = some h1 ∧
      Chain h1.nodes (h1.recs q).head l.reverse ∧
      (∀ a, (h1.nodes a).value = (h.nodes a).value) ∧
      (∀ a, a ∉ l → h1.nodes a = h.nodes a) ∧
      h1.strs = h.strs ∧ h1.liveQ = h.liveQ ∧ h1.liveN = h.liveN ∧ h1.liveS = h.liveS ∧
      (h1.recs q).size = (h.recs q).size ∧ (∀ x, x ≠ q → h1.recs x = h.recs x) := by
  by_cases he : (h.recs q).head = 0
  · have hl : l = [] := by rw [he] at hc; exact chain_zero hc
    subst hl
    exact ⟨h, queue_reverse_noop fuel q h (Or.inr he), hc, fun _ => rfl, fun _ _ => rfl,
      rfl, rfl, rfl, rfl, rfl, fun _ _ => rfl⟩
  · have hn : ¬ (q = 0 ∨ (h.recs q).head = 0) := by tauto
    obtain ⟨n1, hrun, hch, hval, hfr⟩ :=
      queue_reverse_loop_spec l h.nodes 0 (h.recs q).head [] fuel hc rfl
        (fun _ _ hx => by cases hx) hf
    simp only [List.append_nil] at hrun hch
    refine ⟨{ h with
        nodes := n1
        recs := upd (upd h.recs q { h.recs q with tail := (h.recs q).head }) q
          { upd h.recs q { h.recs q with tail := (h.recs q).head } q with
            head := l.reverse.headD 0 } },
      ?_, ?_, hval, hfr, rfl, rfl, rfl, rfl, ?_, ?_⟩
    · simp only [queue_reverse, if_neg hn, hrun, Option.map_some']
    · simpa only [upd_same] using hch
    · simp only [upd_same]
    · intro x hx
      simp only [upd_other _ _ hx]

/-- When `queue_reverse` returns, the fuel was at least the length of the chain. -/
theorem queue_reverse_fuel (q : Addr) (h h1 : Heap) (l : List Addr) (fuel : Nat) (hq : q ≠ 0)
    (hc : Chain h.nodes (h.recs q).head l) (hr : queue_reverse fuel q h = some h1) :
    l.length ≤ fuel := by
  by_cases he : (h.recs q).head = 0
  · have hl : l = [] := by rw [he] at hc; exact chain_zero hc
    subst hl
    exact Nat.zero_le _
  · have hn : ¬ (q = 0 ∨ (h.recs q).head = 0) := by tauto
    simp only [queue_reverse, if_neg hn, Option.map_eq_some'] at hr
    obtain ⟨r, hr, _⟩ := hr
    exact queue_reverse_loop_fuel l _ 0 _ fuel r hc hr

theorem chainInv_reverse (q : Addr) (h h1 : Heap) (fuel : Nat) (hq : q ≠ 0)
    (hi : ChainInv q h) (hr : queue_reverse fuel q h = some h1) : ChainInv q h1 := by
  obtain ⟨l, hc, hl⟩ := hi
  obtain ⟨h2, hrun, hch, _, _, _, _, hlive, _⟩ :=
    queue_reverse_chain q h l fuel hq hc (queue_reverse_fuel q h h1 l fuel hq hc hr)
  have e : h1 = h2 := Option.some.inj (hr.symm.trans hrun)
  subst e
  exact ⟨l.reverse, hch, fun a ha => by rw [hlive]; exact hl a (List.mem_reverse.mp ha)⟩

theorem reachable_ne_zero {q : Addr} {h : Heap} (hr : Reachable q h) : q ≠ 0 := by
  induction hr with
  | new h0 hq _ _ _ => exact hq
  | insert_head _ _ _ _ _ _ _ ih => exact ih
  | insert_tail _ _ _ _ _ _ _ ih => exact ih
  | remove_head _ _ _ _ ih => exact ih
  | reverse _ _ _ _ _ ih => exact ih

theorem reachable_chainInv {q : Addr} {h : Heap} (hr : Reachable q h) : ChainInv q h := by
  induction hr with
  | new h0 hq _ _ _ => exact chainInv_new q h0 hq
  | insert_head h s m1 m2 hr h1 _ ih =>
    exact chainInv_insert_head q s m1 m2 h (reachable_ne_zero hr) ih h1
  | insert_tail h s m1 m2 hr h1 _ ih =>
    exact chainInv_insert_tail q s m1 m2 h (reachable_ne_zero hr) ih h1
  | remove_head h buf c hr ih => exact chainInv_remove_head q buf c h (reachable_ne_zero hr) ih
  | reverse h h1 fuel hr hrev ih => exact chainInv_reverse q h h1 fuel (reachable_ne_zero hr) ih hrev

/-! ## The runs -/

theorem run0_reachable : Reachable 100 run0 :=
  Reachable.new _ (by decide) (fun _ => rfl) (fun _ => rfl) (fun _ => rfl)

theorem run1_reachable : Reachable 100 run1.2 :=
  Reachable.insert_head _ _ _ _ run0_reachable (Or.inr (by decide)) (Or.inr (by decide))

theorem run2_reachable : Reachable 100 run2.2.1 :=
  Reachable.remove_head _ _ _ run1_reachable

theorem run3_reachable : Reachable 100 run3.2 :=
  Reachable.insert_head _ _ _ _ run2_reachable (Or.inr (by decide)) (Or.inr (by decide))

theorem run4_reachable : Reachable 100 run4.2 :=
  Reachable.insert_tail _ _ _ _ run3_reachable (Or.inr (by decide)) (Or.inr (by decide))

theorem run5_reachable : Reachable 100 run5.2.1 :=
  Reachable.remove_head _ _ _ run4_reachable

theorem runB1_reachable : Reachable 100 runB1.2 :=
  Reachable.insert_tail _ _ _ _ run0_reachable (Or.inr (by decide)) (Or.inr (by decide))

theorem runB2_reachable : Reachable 100 runB2.2.1 :=
  Reachable.remove_head _ _ _ runB1_reachable

theorem runB3_reachable : Reachable 100 runB3.2 :=
  Reachable.insert_head _ _ _ _ runB2_reachable (Or.inr (by decide)) (Or.inr (by decide))

theorem runB4_reachable : Reachable 100 runB4.2 :=
  Reachable.insert_head _ _ _ _ runB3_reachable (Or.inr (by decide)) (Or.inr (by decide))

theorem runB5_reachable : Reachable 100 runB5.2 :=
  Reachable.insert_tail _ _ _ _ runB4_reachable (Or.inr (by decide)) (Or.inr (by decide))

theorem runB7_reachable : Reachable 100 runB7.2.1 :=
  Reachable.remove_head _ _ _ (Reachable.remove_head _ _ _ runB5_reachable)

/-- The sequence read from the head is unique. -/
theorem isSeq_unique {q : Addr} {h : Heap} {v1 v2 : List (List Char)}
    (h1 : IsSeq q h v1) (h2 : IsSeq q h v2) : v1 = v2 := by
  obtain ⟨l1, c1, e1⟩ := h1
  obtain ⟨l2, c2, e2⟩ := h2
  rw [← e1, ← e2, chain_unique c1 c2]

theorem scen3_reachable : Reachable 100 scen3.2 :=
  Reachable.insert_head _ _ _ _
    (Reachable.insert_tail _ _ _ _
      (Reachable.insert_tail _ _ _ _ run0_reachable (Or.inr (by decide)) (Or.inr (by decide)))
      (Or.inr (by decide)) (Or.inr (by decide)))
    (Or.inr (by decide)) (Or.inr (by decide))

theorem scen4_seq : IsSeq 100 scen4 ["b".toList, "a".toList, "c".toList] :=
  ⟨[3, 1, 5], by decide, by decide⟩

/-! ## The caller buffer -/

theorem size_sub_one (c : Nat) (h1 : 1 ≤ c) (h2 : c < SIZE_MAX1) :
    (c + (SIZE_MAX1 - 1)) % SIZE_MAX1 = c - 1 := by
  simp only [SIZE_MAX1] at *
  omega

theorem min_eq (a b : Nat) : Queue.min a b = Nat.min a b := by
  unfold Queue.min
  split
  · exact (Nat.min_eq_right (by omega)).symm
  · exact (Nat.min_eq_left (by omega)).symm

theorem map_range_getD (v : List Char) (d : Char) :
    ∀ n, n ≤ v.length → (List.range n).map (fun i => v.getD i d) = v.take n := by
  intro n hn
  apply List.ext_getElem
  · simp [hn]
  · intro i h1 h2
    simp at h1 h2
    simp [List.getD, List.getElem?_eq_getElem (show i < v.length by omega)]

/-- The buffer after `strncpy` and the write of the terminator. -/
theorem buffer_written (b : Nat → Char) (v : List Char) (n : Nat) (hn : n ≤ v.length) :
    (List.range (n + 1)).map (upd (strncpy b v n) n NUL) = v.take n ++ [NUL] := by
  rw [List.range_succ, List.map_append, ← map_range_getD v NUL n hn]
  congr 1
  · apply List.map_congr_left
    intro i hi
    have hi1 : i < n := List.mem_range.mp hi
    simp [upd, strncpy, hi1, Nat.ne_of_lt hi1]
  · simp [upd]

theorem readCStr_spec (b : Nat → Char) :
    ∀ (k fuel i : Nat), (∀ j, j < k → b (i + j) ≠ NUL) → b (i + k) = NUL → k < fuel →
      readCStr b fuel i = some ((List.range k).map fun j => b (i + j))
  | 0, fuel, i, _, h0, hf => by
    obtain ⟨f, rfl⟩ : ∃ f, fuel = f + 1 := ⟨fuel - 1, by omega⟩
    simp [readCStr, show b i = NUL from h0]
  | k + 1, fuel, i, hk, h0, hf => by
    obtain ⟨f, rfl⟩ : ∃ f, fuel = f + 1 := ⟨fuel - 1, by omega⟩
    have hi : b i ≠ NUL := hk 0 (Nat.succ_pos k)
    have ih := readCStr_spec b k f (i + 1)
      (fun j hj => by rw [Nat.add_assoc, Nat.add_comm 1 j]; exact hk (j + 1) (by omega))
      (by rw [Nat.add_assoc, Nat.add_comm 1 k]; exact h0) (by omega)
    simp only [readCStr, if_neg hi, ih, Option.map_some']
    rw [List.range_succ_eq_map, List.map_cons, List.map_map]
    simp only [Nat.add_zero]
    congr 2
    apply List.map_congr_left
    intro j _
    simp [Nat.add_assoc, Nat.add_comm 1 j]

/-! ## Ownership of strings -/

theorem ownInv_new (q : Addr) (h0 : Heap) (hN : ∀ a, h0.liveN a = false) :
    OwnInv (queue_new q h0).2 := by
  have e : (queue_new q h0).2.liveN = h0.liveN := by
    unfold queue_new; split <;> rfl
  constructor
  · intro a ha; rw [e, hN a] at ha; cases ha
  · intro a b ha; rw [e, hN a] at ha; cases ha

/-- The heap after a successful insert, as far as ownership goes. -/
theorem ownInv_insert {h h1 : Heap} {m1 m2 : Addr} (ho : OwnInv h)
    (hf1 : h.liveN m1 = false) (hf2 : h.liveS m2 = false)
    (hN : h1.liveN = upd h.liveN m1 true) (hS : h1.liveS = upd h.liveS m2 true)
    (hv1 : (h1.nodes m1).value = m2)
    (hv : ∀ a, a ≠ m1 → (h1.nodes a).value = (h.nodes a).value) : OwnInv h1 := by
  have hold : ∀ a, h1.liveN a = true → a ≠ m1 →
      h.liveN a = true ∧ (h1.nodes a).value ≠ m2 := by
    intro a ha hne
    rw [hN, upd_other _ _ hne] at ha
    refine ⟨ha, ?_⟩
    rw [hv a hne]
    intro e
    have := ho.1 a ha
    rw [e, hf2] at this
    cases this
  constructor
  · intro a ha
    by_cases e : a = m1
    · subst e; rw [hv1, hS, upd_same]
    · obtain ⟨hl, hne⟩ := hold a ha e
      rw [hS, upd_other _ _ hne, hv a e]
      exact ho.1 a hl
  · intro a b ha hb hab
    by_cases ea : a = m1
    · by_cases eb : b = m1
      · rw [ea, eb]
      · exfalso
        rw [ea, hv1] at hab
        exact (hold b hb eb).2 hab.symm
    · by_cases eb : b = m1
      · exfalso
        rw [eb, hv1] at hab
        exact (hold a ha ea).2 hab
      · rw [hv a ea, hv b eb] at hab
        exact ho.2 a b (hold a ha ea).1 (hold b hb eb).1 hab

theorem ownInv_insert_head (q : Addr) (s : List Char) (m1 m2 : Addr) (h : Heap)
    (hq : q ≠ 0) (ho : OwnInv h) (h1 : MallocOk h.liveN m1) (h2 : MallocOk h.liveS m2) :
    OwnInv (queue_insert_head q s m1 m2 h).2 := by
  by_cases hf : m1 = 0 ∨ m2 = 0
  · rw [queue_insert_head_fail q s m1 m2 h h1 (Or.inr hf)]; exact ho
  have n1 : m1 ≠ 0 := fun e => hf (Or.inl e)
  have n2 : m2 ≠ 0 := fun e => hf (Or.inr e)
  rw [queue_insert_head_ok q s m1 m2 h hq n1 n2]
  refine ownInv_insert ho (h1.resolve_left n1) (h2.resolve_left n2) rfl rfl ?_ ?_
  · simp only [upd_same]
  · intro a ha
    simp only [upd_other _ _ ha]

theorem ownInv_insert_tail (q : Addr) (s : List Char) (m1 m2 : Addr) (h : Heap)
    (hq : q ≠ 0) (ho : OwnInv h) (h1 : MallocOk h.liveN m1) (h2 : MallocOk h.liveS m2) :
    OwnInv (queue_insert_tail q s m1 m2 h).2 := by
  by_cases hf : m1 = 0 ∨ m2 = 0
  · rw [queue_insert_tail_fail q s m1 m2 h h1 (Or.inr hf)]; exact ho
  have n1 : m1 ≠ 0 := fun e => hf (Or.inl e)
  have n2 : m2 ≠ 0 := fun e => hf (Or.inr e)
  rw [queue_insert_tail_ok q s m1 m2 h hq n1 n2]
  by_cases hh : (h.recs q).head = 0
  · simp only [if_pos hh]
    refine ownInv_insert ho (h1.resolve_left n1) (h2.resolve_left n2) rfl rfl ?_ ?_
    · simp only [upd_same]
    · intro a ha
      simp only [upd_other _ _ ha]
  · simp only [if_neg hh]
    refine ownInv_insert ho (h1.resolve_left n1) (h2.resolve_left n2) rfl rfl ?_ ?_
    · by_cases et : m1 = (h.recs q).tail
      · simp only [← et, upd_same]
      · simp only [upd_other _ _ et, upd_same]
    · intro a ha
      by_cases et : a = (h.recs q).tail
      · subst et
        simp only [upd_same, upd_other _ _ ha]
      · simp only [upd_other _ _ et, upd_other _ _ ha]

theorem ownInv_remove_head (q : Addr) (buf : Option (Nat → Char)) (c : Nat) (h : Heap)
    (hq : q ≠ 0) (hi : ChainInv q h) (ho : OwnInv h) :
    OwnInv (queue_remove_head q buf c h).2.1 := by
  by_cases hh : (h.recs q).head = 0
  · rw [queue_remove_head_fail q buf c h (Or.inr hh)]; exact ho
  rw [(queue_remove_head_ok q buf c h hq hh).2]
  obtain ⟨l, hc, hl⟩ := hi
  have hlive : h.liveN (h.recs q).head = true := by
    cases l with
    | nil => exact absurd hc hh
    | cons a l => rw [hc.1]; exact hl a (List.mem_cons_self _ _)
  have hold : ∀ a, upd h.liveN (h.recs q).head false a = true →
      a ≠ (h.recs q).head ∧ h.liveN a = true := by
    intro a ha
    by_cases e : a = (h.recs q).head
    · rw [e, upd_same] at ha; cases ha
    · rw [upd_other _ _ e] at ha; exact ⟨e, ha⟩
  constructor
  · intro a ha
    obtain ⟨hne, hla⟩ := hold a ha
    have hv : (h.nodes a).value ≠ (h.nodes (h.recs q).head).value :=
      fun e => hne (ho.2 a _ hla hlive e)
    simp only [upd_other _ _ hv]
    exact ho.1 a hla
  · intro a b ha hb hab
    exact ho.2 a b (hold a ha).2 (hold b hb).2 hab

theorem ownInv_reverse (q : Addr) (h h1 : Heap) (fuel : Nat) (hq : q ≠ 0)
    (hi : ChainInv q h) (ho : OwnInv h) (hr : queue_reverse fuel q h = some h1) :
    OwnInv h1 := by
  obtain ⟨l, hc, _⟩ := hi
  obtain ⟨h2, hrun, _, hval, _, _, _, hN, hS, _⟩ :=
    queue_reverse_chain q h l fuel hq hc (queue_reverse_fuel q h h1 l fuel hq hc hr)
  have e : h1 = h2 := Option.some.inj (hr.symm.trans hrun)
  subst e
  constructor
  · intro a ha
    rw [hS, hval]
    rw [hN] at ha
    exact ho.1 a ha
  · intro a b ha hb hab
    rw [hN] at ha hb
    rw [hval, hval] at hab
    exact ho.2 a b ha hb hab

theorem reachable_ownInv {q : Addr} {h : Heap} (hr : Reachable q h) : OwnInv h := by
  induction hr with
  | new h0 _ _ hN _ => exact ownInv_new q h0 hN
  | insert_head h s m1 m2 hr h1 h2 ih =>
    exact ownInv_insert_head q s m1 m2 h (reachable_ne_zero hr) ih h1 h2
  | insert_tail h s m1 m2 hr h1 h2 ih =>
    exact ownInv_insert_tail q s m1 m2 h (reachable_ne_zero hr) ih h1 h2
  | remove_head h buf c hr ih =>
    exact ownInv_remove_head q buf c h (reachable_ne_zero hr) (reachable_chainInv hr) ih
  | reverse h h1 fuel hr hrev ih =>
    exact ownInv_reverse q h h1 fuel (reachable_ne_zero hr) (reachable_chainInv hr) ih hrev

/-! ## Runs without `queue_insert_head` -/

theorem chain_ne_zero {nodes : Addr → list_ele_t} :
    ∀ {l : List Addr} {p : Addr}, Chain nodes p l → ∀ a ∈ l, a ≠ 0
  | [], _, _, _, ha => by cases ha
  | b :: l, _, h, a, ha => by
    cases ha with
    | head => exact h.2.1
    | tail _ hx => exact chain_ne_zero h.2.2 a hx

theorem chain_head? {nodes : Addr → list_ele_t} {l : List Addr} {p : Addr}
    (h : Chain nodes p l) (hp : p ≠ 0) : l.head? = some p := by
  cases l with
  | nil => exact absurd h hp
  | cons a l => simp [h.1]

/-- Distinct non-null 64-bit pointers are fewer than `2 ^ 64`. -/
theorem length_lt_of_pointers {l : List Addr} (hn : l.Nodup)
    (hb : ∀ a ∈ l, a ≠ 0 ∧ a < SIZE_MAX1) : l.length + 1 ≤ SIZE_MAX1 := by
  have hsub : l.toFinset ⊆ (Finset.range SIZE_MAX1).erase 0 := by
    intro a ha
    have := hb a (List.mem_toFinset.mp ha)
    simp [this.1, this.2]
  have hcard := Finset.card_le_card hsub
  rw [List.toFinset_card_of_nodup hn,
    Finset.card_erase_of_mem (Finset.mem_range.mpr (by simp [SIZE_MAX1])),
    Finset.card_range] at hcard
  have : 0 < SIZE_MAX1 := by simp [SIZE_MAX1]
  omega

theorem tailInv_length {q : Addr} {h : Heap} {l : List Addr}
    (hc : Chain h.nodes (h.recs q).head l) (hb : ∀ a ∈ l, h.liveN a = true ∧ a < SIZE_MAX1) :
    l.length + 1 ≤ SIZE_MAX1 :=
  length_lt_of_pointers (chain_nodup hc) (fun a ha => ⟨chain_ne_zero hc a ha, (hb a ha).2⟩)

theorem tailInv_new (q : Addr) (h0 : Heap) (hq : q ≠ 0) : TailInv q (queue_new q h0).2 := by
  refine ⟨[], ?_, ?_, fun a ha => (by cases ha), fun hne => absurd rfl hne⟩
  · simp [queue_new, hq, Chain, upd_same]
  · simp [queue_new, hq, upd_same]

theorem tailInv_insert_tail (q : Addr) (s : List Char) (m1 m2 : Addr) (h : Heap)
    (hq : q ≠ 0) (hi : TailInv q h) (hm : MallocOk h.liveN m1) (hp : m1 < SIZE_MAX1) :
    TailInv q (queue_insert_tail q s m1 m2 h).2 := by
  by_cases hf : m1 = 0 ∨ m2 = 0
  · rw [queue_insert_tail_fail q s m1 m2 h hm (Or.inr hf)]; exact hi
  have h1 : m1 ≠ 0 := fun e => hf (Or.inl e)
  have h2 : m2 ≠ 0 := fun e => hf (Or.inr e)
  rw [queue_insert_tail_ok q s m1 m2 h hq h1 h2]
  obtain ⟨l, hc, hlen, hl, hlast⟩ := hi
  have hfresh : h.liveN m1 = false := hm.resolve_left h1
  have hnm : m1 ∉ l := fun hmem => by simpa [hfresh] using (hl m1 hmem).1
  have hlive : ∀ a ∈ l, upd h.liveN m1 true a = true ∧ a < SIZE_MAX1 := fun a ha => by
    refine ⟨?_, (hl a ha).2⟩
    by_cases e : a = m1
    · subst e; simp only [upd_same]
    · simp only [upd_other _ _ e]; exact (hl a ha).1
  by_cases hh : (h.recs q).head = 0
  · simp only [if_pos hh]
    have hnil : l = [] := by rw [hh] at hc; exact chain_zero hc
    subst hnil
    refine ⟨[m1], ?_, ?_, ?_, fun _ => ?_⟩
    · simp only [upd_same]
      exact ⟨rfl, h1, by simp only [upd_same]; rfl⟩
    · simp only [upd_same, ← hlen]
      simp [SIZE_MAX1]
    · intro a ha
      have e : a = m1 := by simpa using ha
      subst e
      exact ⟨by simp only [upd_same], hp⟩
    · simp only [upd_same]; rfl
  · simp only [if_neg hh]
    have hne : l ≠ [] := fun e => hh (by rw [e] at hc; exact hc)
    have hgl := hlast hne
    have hsplit : l.dropLast ++ [(h.recs q).tail] = l :=
      List.dropLast_append_getLast? _ (by rw [hgl]; rfl)
    have hnd : (l.dropLast ++ [(h.recs q).tail]).Nodup := hsplit.symm ▸ chain_nodup hc
    have ht : (h.recs q).tail ∈ l := by rw [← hsplit]; simp
    have htl1 : (h.recs q).tail ∉ l.dropLast := fun hx =>
      (List.nodup_append.mp hnd).2.2 hx (List.mem_singleton_self _)
    have htm : (h.recs q).tail ≠ m1 := fun e1 => hnm (e1 ▸ ht)
    have hc2 : Chain
        (upd (upd h.nodes m1 ⟨m2, 0⟩) (h.recs q).tail
          ⟨(upd h.nodes m1 ⟨m2, 0⟩ (h.recs q).tail).value, m1⟩)
        (h.recs q).head (l.dropLast ++ [(h.recs q).tail, m1]) := by
      have hc1 : Chain h.nodes (h.recs q).head (l.dropLast ++ (h.recs q).tail :: []) :=
        hsplit.symm ▸ hc
      refine chain_relink hc1 ?_ ?_ ?_ h1
      · intro a ha
        have ha1 : a ≠ (h.recs q).tail := fun e1 => htl1 (e1 ▸ ha)
        have ha2 : a ≠ m1 := fun e1 => hnm (by
          rw [← hsplit]; exact List.mem_append_left _ (e1 ▸ ha))
        rw [upd_other _ _ ha1, upd_other _ _ ha2]
      · rw [upd_same]
      · rw [upd_other _ _ (Ne.symm htm), upd_same]
    have hmem : ∀ a ∈ l.dropLast ++ [(h.recs q).tail, m1],
        upd h.liveN m1 true a = true ∧ a < SIZE_MAX1 := by
      intro a ha
      rcases List.mem_append.mp ha with ha | ha
      · exact hlive a (by rw [← hsplit]; exact List.mem_append_left _ ha)
      · have : a = (h.recs q).tail ∨ a = m1 := by simpa using ha
        rcases this with e1 | e1
        · rw [e1]; exact hlive _ ht
        · rw [e1]; exact ⟨by simp only [upd_same], hp⟩
    have hbound := length_lt_of_pointers (chain_nodup hc2)
      (fun a ha => ⟨chain_ne_zero hc2 a ha, (hmem a ha).2⟩)
    have hlen2 : (l.dropLast ++ [(h.recs q).tail, m1]).length = l.length + 1 := by
      conv_rhs => rw [← hsplit]
      simp
    refine ⟨l.dropLast ++ [(h.recs q).tail, m1], ?_, ?_, hmem, fun _ => ?_⟩
    · simpa only [upd_same] using hc2
    · simp only [upd_same]
      rw [hlen2] at hbound ⊢
      rw [← hlen, Nat.mod_eq_of_lt (by omega)]
    · simp only [upd_same]
      simp

theorem tailInv_remove_head (q : Addr) (buf : Option (Nat → Char)) (c : Nat) (h : Heap)
    (hq : q ≠ 0) (hi : TailInv q h) : TailInv q (queue_remove_head q buf c h).2.1 := by
  by_cases hh : (h.recs q).head = 0
  · rw [queue_remove_head_fail q buf c h (Or.inr hh)]; exact hi
  rw [(queue_remove_head_ok q buf c h hq hh).2]
  obtain ⟨l, hc, hlen, hl, hlast⟩ := hi
  have hbound := tailInv_length hc hl
  cases l with
  | nil => exact absurd hc hh
  | cons a l =>
    have ha : (h.recs q).head = a := hc.1
    have hnm : a ∉ l := chain_head_not_mem hc
    refine ⟨l, ?_, ?_, ?_, ?_⟩
    · simp only [upd_same, ha]
      exact hc.2.2
    · simp only [upd_same, ← hlen, SIZE_MAX1, List.length_cons] at hbound ⊢
      omega
    · intro x hx
      have e : x ≠ (h.recs q).head := fun e1 => hnm (ha ▸ e1 ▸ hx)
      simp only [upd_other _ _ e]
      exact hl x (List.mem_cons_of_mem _ hx)
    · intro hne
      simp only [upd_same]
      rw [← hlast (List.cons_ne_nil _ _)]
      cases l with
      | nil => exact absurd rfl hne
      | cons b l => simp

/-- After `queue_reverse` on a queue that is not empty, `tail` is the old head. -/
theorem queue_reverse_tail (q : Addr) (h h1 : Heap) (fuel : Nat) (hq : q ≠ 0)
    (hh : (h.recs q).head ≠ 0) (hr : queue_reverse fuel q h = some h1) :
    (h1.recs q).tail = (h.recs q).head := by
  have hn : ¬ (q = 0 ∨ (h.recs q).head = 0) := by tauto
  simp only [queue_reverse, if_neg hn, Option.map_eq_some'] at hr
  obtain ⟨r, _, e⟩ := hr
  rw [← e]
  simp only [upd_same]

theorem tailInv_reverse (q : Addr) (h h1 : Heap) (fuel : Nat) (hq : q ≠ 0)
    (hi : TailInv q h) (hr : queue_reverse fuel q h = some h1) : TailInv q h1 := by
  obtain ⟨l, hc, hlen, hl, hlast⟩ := hi
  obtain ⟨h2, hrun, hch, _, _, _, _, hlive, _, hsize, _⟩ :=
    queue_reverse_chain q h l fuel hq hc (queue_reverse_fuel q h h1 l fuel hq hc hr)
  have e : h1 = h2 := Option.some.inj (hr.symm.trans hrun)
  subst e
  refine ⟨l.reverse, hch, by rw [List.length_reverse, hsize, hlen],
    fun a ha => by rw [hlive]; exact hl a (List.mem_reverse.mp ha), fun hne => ?_⟩
  have hh : (h.recs q).head ≠ 0 := fun e => by
    rw [e] at hc
    exact hne (by rw [chain_zero hc]; rfl)
  rw [List.getLast?_reverse, chain_head? hc hh, queue_reverse_tail q h h1 fuel hq hh hr]

theorem reachableTail_ne_zero {q : Addr} {h : Heap} (hr : ReachableTail q h) : q ≠ 0 := by
  induction hr with
  | new h0 hq _ _ _ => exact hq
  | insert_tail _ _ _ _ _ _ _ _ ih => exact ih
  | remove_head _ _ _ _ ih => exact ih
  | reverse _ _ _ _ _ ih => exact ih

theorem reachableTail_reachable {q : Addr} {h : Heap} (hr : ReachableTail q h) :
    Reachable q h := by
  induction hr with
  | new h0 hq hQ hN hS => exact Reachable.new h0 hq hQ hN hS
  | insert_tail h s m1 m2 _ h1 h2 _ ih => exact Reachable.insert_tail h s m1 m2 ih h1 h2
  | remove_head h buf c _ ih => exact Reachable.remove_head h buf c ih
  | reverse h h1 fuel _ hrev ih => exact Reachable.reverse h h1 fuel ih hrev

theorem reachableTail_tailInv {q : Addr} {h : Heap} (hr : ReachableTail q h) :
    TailInv q h := by
  induction hr with
  | new h0 hq _ _ _ => exact tailInv_new q h0 hq
  | insert_tail h s m1 m2 hr h1 _ hp ih =>
    exact tailInv_insert_tail q s m1 m2 h (reachableTail_ne_zero hr) ih h1 hp
  | remove_head h buf c hr ih =>
    exact tailInv_remove_head q buf c h (reachableTail_ne_zero hr) ih
  | reverse h h1 fuel hr hrev ih =>
    exact tailInv_reverse q h h1 fuel (reachableTail_ne_zero hr) ih hrev

/-- The loop of `queue_reverse` dereferences nodes of the chain from `curr` only. -/
theorem queue_reverse_loop_touches_mem :
    ∀ (l : List Addr) (nodes : Addr → list_ele_t) (prev curr : Addr) (fuel : Nat),
      Chain nodes curr l → ∀ a ∈ queue_reverse_loop_touches fuel nodes prev curr, a ∈ l
  | [], nodes, prev, curr, fuel, hc, a, ha => by
    have hc0 : curr = 0 := hc
    cases fuel <;> simp [queue_reverse_loop_touches, hc0] at ha
  | c :: l, nodes, prev, curr, fuel, hc, a, ha => by
    obtain ⟨e, hc0, hrest⟩ := hc
    subst e
    have hcl : curr ∉ l :=
      chain_head_not_mem (show Chain nodes curr (curr :: l) from ⟨rfl, hc0, hrest⟩)
    cases fuel with
    | zero => simp [queue_reverse_loop_touches] at ha
    | succ fuel =>
      simp only [queue_reverse_loop_touches, if_neg hc0, List.mem_cons] at ha
      rcases ha with ha | ha
      · rw [ha]; exact List.mem_cons_self _ _
      · have hc1 : Chain (upd nodes curr { nodes curr with next := prev })
            (nodes curr).next l :=
          chain_congr hrest (fun x hx => by
            rw [upd_other]; rintro rfl; exact hcl hx)
        exact List.mem_cons_of_mem _
          (queue_reverse_loop_touches_mem l _ curr (nodes curr).next fuel hc1 a ha)

/-! ## Insert followed by remove -/

theorem scen2_reachableTail : ReachableTail 100 scen2.2 :=
  ReachableTail.insert_tail _ _ _ _
    (ReachableTail.insert_tail _ _ _ _
      (ReachableTail.new _ (by decide) (fun _ => rfl) (fun _ => rfl) (fun _ => rfl))
      (Or.inr (by decide)) (Or.inr (by decide)) (by decide))
    (Or.inr (by decide)) (Or.inr (by decide)) (by decide)

theorem scen4_reachable : Reachable 100 scen4 := by
  have hs : (queue_reverse 3 100 scen3.2).isSome = true := by decide
  obtain ⟨h1, e⟩ := Option.isSome_iff_exists.mp hs
  have e4 : scen4 = h1 := by simp only [scen4, e, Option.getD_some]
  rw [e4]
  exact Reachable.reverse _ _ 3 scen3_reachable e

/-- The buffer that `queue_remove_head` returns for a buffer of size `c`, `1 <= c`. -/
theorem queue_remove_head_buf (q : Addr) (h : Heap) (b : Nat → Char) (c : Nat)
    (hq : q ≠ 0) (hh : (h.recs q).head ≠ 0) (hc1 : 1 ≤ c) (hc2 : c < SIZE_MAX1) :
    (queue_remove_head q (some b) c h).2.2 =
      some (upd (strncpy b (headValue q h) (Nat.min (headValue q h).length (c - 1)))
        (Nat.min (headValue q h).length (c - 1)) NUL) := by
  have hn : ¬ (q = 0 ∨ (h.recs q).head = 0) := by tauto
  simp only [queue_remove_head, if_neg hn, size_sub_one c hc1 hc2, min_eq, strlen, headValue]

/-- Removing the head of a queue whose only node holds `s`, into a buffer that `s` fits. -/
theorem remove_single (q : Addr) (h : Heap) (s : List Char) (b : Nat → Char) (c sz : Nat)
    (hq : q ≠ 0) (hh : (h.recs q).head ≠ 0) (hnext : (h.nodes (h.recs q).head).next = 0)
    (hv : headValue q h = s) (hsz : sz < SIZE_MAX1)
    (hsize : (h.recs q).size = (sz + 1) % SIZE_MAX1)
    (hc : s.length < c) (hc2 : c < SIZE_MAX1) :
    (queue_remove_head q (some b) c h).1 = true ∧
      (∃ b1, (queue_remove_head q (some b) c h).2.2 = some b1 ∧
        (List.range (s.length + 1)).map b1 = s ++ [NUL] ∧
        (∀ i, s.length < i → b1 i = b i) ∧
        (NUL ∉ s → ∀ fuel, s.length < fuel → readCStr b1 fuel 0 = some s)) ∧
      ((queue_remove_head q (some b) c h).2.1.recs q).head = 0 ∧
      IsSeq q (queue_remove_head q (some b) c h).2.1 [] ∧
      ((queue_remove_head q (some b) c h).2.1.recs q).size = sz ∧
      queue_size q (queue_remove_head q (some b) c h).2.1 = 0 := by
  obtain ⟨hres, hheap⟩ := queue_remove_head_ok q (some b) c h hq hh
  have hbuf := queue_remove_head_buf q h b c hq hh (by omega) hc2
  have hmin : Nat.min (headValue q h).length (c - 1) = s.length := by
    rw [hv]; exact Nat.min_eq_left (by omega)
  rw [hmin, hv] at hbuf
  have hw := buffer_written b s s.length (Nat.le_refl _)
  rw [List.take_length] at hw
  have hhead : ((queue_remove_head q (some b) c h).2.1.recs q).head = 0 := by
    rw [hheap]; simp only [upd_same, hnext]
  refine ⟨hres, ⟨_, hbuf, hw, ?_, ?_⟩, hhead, ⟨[], hhead, rfl⟩, ?_, ?_⟩
  · intro i hi
    simp [upd, strncpy, Nat.ne_of_gt hi, Nat.not_lt_of_gt hi]
  · intro hnul fuel hf
    have hr := readCStr_spec (upd (strncpy b s s.length) s.length NUL) s.length fuel 0 ?_ ?_ hf
    · rw [hr]
      simp only [Nat.zero_add]
      rw [List.range_succ, List.map_append] at hw
      rw [List.append_inj_left hw (by simp)]
    · intro j hj
      simp only [Nat.zero_add, upd, if_neg (Nat.ne_of_lt hj), strncpy, if_pos hj,
        List.getD_eq_getElem _ _ hj]
      intro e
      exact hnul (e ▸ List.getElem_mem hj)
    · simp [upd]
  · rw [hheap]
    simp only [upd_same, hsize, SIZE_MAX1] at hsz ⊢
    omega
  · simp only [queue_size, hhead, or_true, if_true]

/-! ## The claims -/

/-- C1: the claim says that in every reachable state `size == 0`, `head` none and `tail`
none go together, and that `tail` is none once `queue_remove_head` has removed the last
element. Here the code is run on a queue holding one element: `queue_remove_head`
succeeds and leaves `size == 0` and `head == NULL`, and `tail` still holds the address of
the node it has just released. -/
theorem queue_remove_head_keeps_stale_tail :
    Reachable 100 run2.2.1 ∧ (run1.2.recs 100).size = 1 ∧ run2.1 = true ∧
      (run2.2.1.recs 100).size = 0 ∧ (run2.2.1.recs 100).head = 0 ∧
      (run2.2.1.recs 100).tail = 1 ∧ (run2.2.1.recs 100).tail ≠ 0 ∧
      run2.2.1.liveN 1 = false :=
  ⟨run2_reachable, by decide⟩

/-- C2: the claim says that in every reachable state a successful `queue_insert_tail`
appends its string to the sequence read from the head. Here the code is run on two
reachable states in which `tail` is stale: the call succeeds, the new node becomes
`tail` with `next == NULL` and `size` grows by one, but the sequence read from the head is
not the old one followed by the string. In the first run the sequence stays `["b"]` and the
write goes to the released node `1`; in the second, where no released cell is touched,
`["z", "y"]` becomes `["z", "w"]`. -/
theorem queue_insert_tail_with_stale_tail :
    (Reachable 100 run3.2 ∧ IsSeq 100 run3.2 ["b".toList] ∧ run4.1 = true ∧
      IsSeq 100 run4.2 ["b".toList] ∧ ¬ IsSeq 100 run4.2 ["b".toList, "c".toList] ∧
      (run4.2.recs 100).tail = 5 ∧ (run4.2.nodes 5).next = 0 ∧
      (run3.2.recs 100).size = 1 ∧ (run4.2.recs 100).size = 2 ∧
      (run3.2.recs 100).tail = 1 ∧ run3.2.liveN 1 = false ∧ (run4.2.nodes 1).next = 5) ∧
    (Reachable 100 runB4.2 ∧ IsSeq 100 runB4.2 ["z".toList, "y".toList] ∧ runB5.1 = true ∧
      IsSeq 100 runB5.2 ["z".toList, "w".toList] ∧
      ¬ IsSeq 100 runB5.2 ["z".toList, "y".toList, "w".toList] ∧
      (runB4.2.recs 100).tail = 1 ∧ runB4.2.liveN 1 = true ∧ runB4.2.liveN 3 = true) := by
  have a1 : IsSeq 100 run4.2 ["b".toList] := ⟨[3], by decide, by decide⟩
  have b1 : IsSeq 100 runB5.2 ["z".toList, "w".toList] := ⟨[1, 5], by decide, by decide⟩
  refine ⟨⟨run3_reachable, ⟨[3], by decide, by decide⟩, by decide, a1, ?_, by decide⟩,
    ⟨runB4_reachable, ⟨[1, 3], by decide, by decide⟩, by decide, b1, ?_, by decide⟩⟩
  · intro hs
    exact absurd (isSeq_unique a1 hs) (by decide)
  · intro hs
    exact absurd (isSeq_unique b1 hs) (by decide)

/-- C3: the claim says that in every reachable state with `size >= 1` the chain from the
head ends at `tail`, that `head` and `tail` are the same node when `size == 1`, and that
`queue_insert_head` on an empty queue makes the new node both. Here `queue_insert_head`
succeeds on a reachable queue that a removal has emptied: `size == 1`, the chain from the
head is the new node `3` alone, and `tail` is still the released node `1`. -/
theorem queue_insert_head_after_emptying :
    Reachable 100 run3.2 ∧ (run2.2.1.recs 100).size = 0 ∧ (run2.2.1.recs 100).head = 0 ∧
      run3.1 = true ∧ (run3.2.recs 100).size = 1 ∧ (run3.2.recs 100).head = 3 ∧
      Chain run3.2.nodes (run3.2.recs 100).head [3] ∧ (run3.2.recs 100).tail = 1 ∧
      (run3.2.recs 100).tail ≠ (run3.2.recs 100).head ∧ run3.2.liveN 1 = false :=
  ⟨run3_reachable, by decide⟩

/-- C4: the claim says that `queue_size` is at every point the number of inserts that
returned true minus the number of removes that returned true. Here the code is run twice:
three inserts and two removes all return true and `queue_size` answers `0`; in the second
run, where no released cell is touched, four inserts and three removes all return true
and `queue_size` answers `0`. The stored `size` is `1` both times. -/
theorem queue_size_after_stale_tail :
    (Reachable 100 run5.2.1 ∧ run1.1 = true ∧ run2.1 = true ∧ run3.1 = true ∧
      run4.1 = true ∧ run5.1 = true ∧ queue_size 100 run5.2.1 = 0 ∧
      (run5.2.1.recs 100).size = 1) ∧
    (Reachable 100 runB7.2.1 ∧ runB1.1 = true ∧ runB2.1 = true ∧ runB3.1 = true ∧
      runB4.1 = true ∧ runB5.1 = true ∧ runB6.1 = true ∧ runB7.1 = true ∧
      queue_size 100 runB7.2.1 = 0 ∧ (runB7.2.1.recs 100).size = 1) :=
  ⟨⟨run5_reachable, by decide⟩, ⟨runB7_reachable, by decide⟩⟩

/-- C5: the claim says that `queue_free` releases every node and every string allocated
for a reachable queue. Here `queue_free` is run on two reachable states: it returns, the
record is released, and a node and its string that an insert allocated stay live: node `5`
and string `6` in the first run, node `3` and string `4` in the second, where no released
cell is touched. -/
theorem queue_free_leaks_after_stale_tail :
    (Reachable 100 run4.2 ∧ run3.2.liveN 5 = false ∧ run3.2.liveS 6 = false ∧
      (queue_free 1 100 run4.2).map (fun h => (h.liveQ 100, h.liveN 5, h.liveS 6)) =
        some (false, true, true)) ∧
    (Reachable 100 runB5.2 ∧ runB2.2.1.liveN 3 = false ∧ runB2.2.1.liveS 4 = false ∧
      (queue_free 2 100 runB5.2).map (fun h => (h.liveQ 100, h.liveN 3, h.liveS 4)) =
        some (false, true, true)) :=
  ⟨⟨run4_reachable, by decide⟩, ⟨runB5_reachable, by decide⟩⟩

/-- C6: when the allocation of the node or of the copy of the string fails,
`queue_insert_head` and `queue_insert_tail` return false and the heap (records, nodes,
strings and the three sets of live allocations) is the one before the call; the node
allocated before a failed copy allocation is released again. -/
theorem queue_insert_allocation_failure (q : Addr) (s : List Char) (m1 m2 : Addr) (h : Heap)
    (hm : MallocOk h.liveN m1) (hf : m1 = 0 ∨ m2 = 0) :
    queue_insert_head q s m1 m2 h = (false, h) ∧ queue_insert_tail q s m1 m2 h = (false, h) :=
  ⟨queue_insert_head_fail q s m1 m2 h hm (Or.inr hf),
    queue_insert_tail_fail q s m1 m2 h hm (Or.inr hf)⟩

theorem queue_insert_allocation_failure_witness :
    MallocOk scen3.2.liveN 7 ∧ ((7 : Addr) = 0 ∨ (0 : Addr) = 0) ∧
      queue_insert_head 100 "d".toList 7 0 scen3.2 = (false, scen3.2) ∧
      queue_insert_tail 100 "d".toList 7 0 scen3.2 = (false, scen3.2) :=
  ⟨Or.inr (by decide), Or.inr rfl,
    queue_insert_allocation_failure 100 "d".toList 7 0 scen3.2 (Or.inr (by decide)) (Or.inr rfl)⟩

/-- C7: on a present, non-empty queue and a buffer of capacity `c` with `1 <= c`,
`queue_remove_head` succeeds and writes the first `min(length(v), c - 1)` characters of the
first value `v` followed by one terminator, and nothing after it; when `c - 1 < length(v)`
the output is the first `c - 1` characters and a terminator at offset `c - 1`; when
`c > length(v)` the output is `v` and a terminator; and the C string then found in the
buffer is made of those first characters of `v`. -/
theorem queue_remove_head_buffer (q : Addr) (h : Heap) (b : Nat → Char) (c : Nat)
    (hq : q ≠ 0) (hh : (h.recs q).head ≠ 0) (hc1 : 1 ≤ c) (hc2 : c < SIZE_MAX1) :
    ∃ b1, (queue_remove_head q (some b) c h).1 = true ∧
      (queue_remove_head q (some b) c h).2.2 = some b1 ∧
      (List.range (Nat.min (headValue q h).length (c - 1) + 1)).map b1 =
        (headValue q h).take (Nat.min (headValue q h).length (c - 1)) ++ [NUL] ∧
      (∀ i, Nat.min (headValue q h).length (c - 1) < i → b1 i = b i) ∧
      (c - 1 < (headValue q h).length →
        (List.range c).map b1 = (headValue q h).take (c - 1) ++ [NUL]) ∧
      ((headValue q h).length < c →
        (List.range ((headValue q h).length + 1)).map b1 = headValue q h ++ [NUL]) ∧
      (NUL ∉ headValue q h → ∀ fuel, Nat.min (headValue q h).length (c - 1) < fuel →
        readCStr b1 fuel 0 = some ((headValue q h).take (Nat.min (headValue q h).length (c - 1)))) := by
  have hn : ¬ (q = 0 ∨ (h.recs q).head = 0) := by tauto
  have hle : Nat.min (headValue q h).length (c - 1) ≤ (headValue q h).length :=
    Nat.min_le_left _ _
  have hw := buffer_written b (headValue q h) _ hle
  refine ⟨upd (strncpy b (headValue q h) (Nat.min (headValue q h).length (c - 1)))
    (Nat.min (headValue q h).length (c - 1)) NUL, ?_, ?_, hw, ?_, ?_, ?_, ?_⟩
  · simp only [queue_remove_head, if_neg hn]
  · simp only [queue_remove_head, if_neg hn, size_sub_one c hc1 hc2, min_eq, strlen, headValue]
  · intro i hi
    simp [upd, strncpy, Nat.ne_of_gt hi, Nat.not_lt_of_gt hi]
  · intro hlt
    have e : Nat.min (headValue q h).length (c - 1) = c - 1 := Nat.min_eq_right (by omega)
    rw [e] at hw
    rw [e]
    have e2 : c - 1 + 1 = c := by omega
    rw [e2] at hw
    exact hw
  · intro hlt
    have e : Nat.min (headValue q h).length (c - 1) = (headValue q h).length :=
      Nat.min_eq_left (by omega)
    rw [e] at hw
    rw [e]
    simpa using hw
  · intro hnul fuel hf
    have hr := readCStr_spec
      (upd (strncpy b (headValue q h) (Nat.min (headValue q h).length (c - 1)))
        (Nat.min (headValue q h).length (c - 1)) NUL)
      (Nat.min (headValue q h).length (c - 1)) fuel 0 ?_ ?_ hf
    · rw [hr]
      simp only [Nat.zero_add]
      rw [List.range_succ, List.map_append] at hw
      have := List.append_inj_left hw (by simp)
      rw [this]
    · intro j hj
      have hj2 : j < (headValue q h).length := Nat.lt_of_lt_of_le hj hle
      simp only [Nat.zero_add, upd, if_neg (Nat.ne_of_lt hj), strncpy, if_pos hj,
        List.getD_eq_getElem _ _ hj2]
      intro e
      exact hnul (e ▸ List.getElem_mem hj2)
    · simp [upd]

theorem queue_remove_head_buffer_witness :
    (100 : Addr) ≠ 0 ∧ (scen4.recs 100).head ≠ 0 ∧ 1 ≤ 10 ∧ 10 < SIZE_MAX1 ∧
      headValue 100 scen4 = "b".toList ∧
      (∃ b1, scen5.1 = true ∧ scen5.2.2 = some b1 ∧
        (List.range (Nat.min (headValue 100 scen4).length (10 - 1) + 1)).map b1 =
          (headValue 100 scen4).take (Nat.min (headValue 100 scen4).length (10 - 1)) ++ [NUL]) ∧
      scen5.2.2.map (fun b1 => (List.range 3).map b1) = some ['b', NUL, '#'] :=
  ⟨by decide, by decide, by decide, by decide, by decide,
    (queue_remove_head_buffer 100 scen4 (fun _ => '#') 10 (by decide) (by decide) (by decide)
      (by decide)).imp fun _ hb => ⟨hb.1, hb.2.1, hb.2.2.1⟩, by decide⟩

/-- C8: on a present queue whose sequence read from the head is `v :: rest`,
`queue_remove_head` returns true, with a buffer or without; afterwards the sequence read
from the head is `rest`, no node and no string has been written, `size` is one less (in
`size_t`), the removed node and its string are released and no other allocation has
changed. -/
theorem queue_remove_head_removes (q : Addr) (h : Heap) (buf : Option (Nat → Char)) (c : Nat)
    (v : List Char) (rest : List (List Char)) (hq : q ≠ 0) (hs : IsSeq q h (v :: rest)) :
    (queue_remove_head q buf c h).1 = true ∧
      IsSeq q (queue_remove_head q buf c h).2.1 rest ∧
      (queue_remove_head q buf c h).2.1.nodes = h.nodes ∧
      (queue_remove_head q buf c h).2.1.strs = h.strs ∧
      ((queue_remove_head q buf c h).2.1.recs q).size =
        ((h.recs q).size + (SIZE_MAX1 - 1)) % SIZE_MAX1 ∧
      (0 < (h.recs q).size → (h.recs q).size < SIZE_MAX1 →
        ((queue_remove_head q buf c h).2.1.recs q).size + 1 = (h.recs q).size) ∧
      (queue_remove_head q buf c h).2.1.liveN (h.recs q).head = false ∧
      (queue_remove_head q buf c h).2.1.liveS (h.nodes (h.recs q).head).value = false ∧
      (∀ a, a ≠ (h.recs q).head → (queue_remove_head q buf c h).2.1.liveN a = h.liveN a) ∧
      (∀ a, a ≠ (h.nodes (h.recs q).head).value →
        (queue_remove_head q buf c h).2.1.liveS a = h.liveS a) ∧
      (queue_remove_head q buf c h).2.1.liveQ = h.liveQ := by
  obtain ⟨l, hc, hv⟩ := hs
  cases l with
  | nil => simp [values] at hv
  | cons a l =>
    have hh : (h.recs q).head ≠ 0 := fun e => hc.2.1 (hc.1 ▸ e)
    obtain ⟨hres, hheap⟩ := queue_remove_head_ok q buf c h hq hh
    rw [hheap]
    refine ⟨hres, ⟨l, ?_, ?_⟩, rfl, rfl, ?_, ?_, ?_, ?_, ?_, ?_, rfl⟩
    · simp only [upd_same, hc.1]
      exact hc.2.2
    · simp only [values, List.map_cons, List.cons.injEq] at hv ⊢
      exact hv.2
    · simp only [upd_same]
    · intro h0 h1
      simp only [upd_same, SIZE_MAX1] at *
      omega
    · simp only [upd_same]
    · simp only [upd_same]
    · intro x hx
      simp only [upd_other _ _ hx]
    · intro x hx
      simp only [upd_other _ _ hx]

theorem queue_remove_head_removes_witness :
    (100 : Addr) ≠ 0 ∧ IsSeq 100 scen4 ["b".toList, "a".toList, "c".toList] ∧
      scen5.1 = true ∧ IsSeq 100 scen5.2.1 ["a".toList, "c".toList] ∧
      queue_size 100 scen5.2.1 = 2 :=
  ⟨by decide, scen4_seq,
    (queue_remove_head_removes 100 scen4 (some fun _ => '#') 10 _ _ (by decide) scen4_seq).1,
    (queue_remove_head_removes 100 scen4 (some fun _ => '#') 10 _ _ (by decide) scen4_seq).2.1,
    by decide⟩

/-- C9: `queue_remove_head` returns false exactly when the queue pointer is `NULL` or the
queue is empty (`head == NULL`), and then the heap (and so every set of live allocations)
and the buffer are the ones before the call. -/
theorem queue_remove_head_fails_iff (q : Addr) (buf : Option (Nat → Char)) (c : Nat)
    (h : Heap) :
    ((queue_remove_head q buf c h).1 = false ↔ (q = 0 ∨ (h.recs q).head = 0)) ∧
      ((queue_remove_head q buf c h).1 = false →
        queue_remove_head q buf c h = (false, h, buf)) := by
  by_cases he : q = 0 ∨ (h.recs q).head = 0
  · rw [queue_remove_head_fail q buf c h he]
    exact ⟨⟨fun _ => he, fun _ => rfl⟩, fun _ => rfl⟩
  · have hq : q ≠ 0 := fun e => he (Or.inl e)
    have hh : (h.recs q).head ≠ 0 := fun e => he (Or.inr e)
    have ht := (queue_remove_head_ok q buf c h hq hh).1
    constructor
    · constructor
      · intro hf; rw [ht] at hf; cases hf
      · intro h1; exact absurd h1 he
    · intro hf; rw [ht] at hf; cases hf

theorem queue_remove_head_fails_iff_witness :
    queue_size 100 run0 = 0 ∧ (queue_remove_head 100 none 10 run0).1 = false ∧
      queue_remove_head 100 none 10 run0 = (false, run0, none) ∧
      queue_size 100 (queue_remove_head 100 none 10 run0).2.1 = 0 :=
  ⟨by decide, (queue_remove_head_fails_iff 100 none 10 run0).1.mpr (Or.inr (by decide)),
    (queue_remove_head_fails_iff 100 none 10 run0).2 (by decide), by decide⟩

/-- C10: in every reachable heap the sequence read from the head of `q` is some finite
`vs`, and `queue_reverse` returns as soon as the fuel covers its length; afterwards the
sequence read from the head is the reverse of `vs`, `size`, the value pointer of every
node and every string are unchanged, and so are the three sets of live allocations.
On a `NULL` or empty queue `queue_reverse` returns the heap it was given. -/
theorem queue_reverse_reverses (q : Addr) (h : Heap) (hr : Reachable q h) :
    ∃ vs, IsSeq q h vs ∧
      (∀ fuel, vs.length ≤ fuel → ∃ h1, queue_reverse fuel q h = some h1 ∧
        IsSeq q h1 vs.reverse ∧ (h1.recs q).size = (h.recs q).size ∧
        (∀ a, (h1.nodes a).value = (h.nodes a).value) ∧ h1.strs = h.strs ∧
        h1.liveQ = h.liveQ ∧ h1.liveN = h.liveN ∧ h1.liveS = h.liveS) ∧
      (∀ fuel q0 h0, (q0 = 0 ∨ (h0.recs q0).head = 0) → queue_reverse fuel q0 h0 = some h0) := by
  obtain ⟨l, hc, _⟩ := reachable_chainInv hr
  refine ⟨values h l, ⟨l, hc, rfl⟩, ?_, fun fuel q0 h0 he => queue_reverse_noop fuel q0 h0 he⟩
  intro fuel hf
  obtain ⟨h1, hrun, hch, hval, _, hstr, hQ, hN, hS, hsize, _⟩ :=
    queue_reverse_chain q h l fuel (reachable_ne_zero hr) hc (by simpa [values] using hf)
  refine ⟨h1, hrun, ⟨l.reverse, hch, ?_⟩, hsize, hval, hstr, hQ, hN, hS⟩
  simp only [values, List.map_reverse, hstr, hval]

theorem queue_reverse_reverses_witness :
    Reachable 100 scen3.2 ∧ IsSeq 100 scen3.2 ["c".toList, "a".toList, "b".toList] ∧
      queue_size 100 scen3.2 = 3 ∧
      (∃ vs, IsSeq 100 scen3.2 vs ∧ ∀ fuel, vs.length ≤ fuel →
        ∃ h1, queue_reverse fuel 100 scen3.2 = some h1 ∧ IsSeq 100 h1 vs.reverse) ∧
      IsSeq 100 scen4 ["b".toList, "a".toList, "c".toList] :=
  ⟨scen3_reachable, ⟨[5, 1, 3], by decide, by decide⟩, by decide,
    (queue_reverse_reverses 100 scen3.2 scen3_reachable).imp fun _ hv =>
      ⟨hv.1, fun fuel hf => (hv.2.1 fuel hf).imp fun _ h1 => ⟨h1.1, h1.2.1⟩⟩,
    scen4_seq⟩

/-- C11: in every reachable heap the sequence read from the head of `q` is some finite
`vs`, and `queue_reverse` applied twice (with fuel covering its length) returns both times
and leaves the sequence read from the head equal to `vs`. -/
theorem queue_reverse_twice (q : Addr) (h : Heap) (hr : Reachable q h) :
    ∃ vs, IsSeq q h vs ∧
      ∀ fuel, vs.length ≤ fuel → ∃ h1 h2, queue_reverse fuel q h = some h1 ∧
        queue_reverse fuel q h1 = some h2 ∧ IsSeq q h1 vs.reverse ∧ IsSeq q h2 vs := by
  obtain ⟨l, hc, _⟩ := reachable_chainInv hr
  have hq := reachable_ne_zero hr
  refine ⟨values h l, ⟨l, hc, rfl⟩, ?_⟩
  intro fuel hf
  have hf1 : l.length ≤ fuel := by simpa [values] using hf
  obtain ⟨h1, hrun1, hch1, hval1, _, hstr1, _⟩ := queue_reverse_chain q h l fuel hq hc hf1
  obtain ⟨h2, hrun2, hch2, hval2, _, hstr2, _⟩ :=
    queue_reverse_chain q h1 l.reverse fuel hq hch1 (by simpa using hf1)
  refine ⟨h1, h2, hrun1, hrun2, ⟨l.reverse, hch1, ?_⟩, ⟨l, by simpa using hch2, ?_⟩⟩
  · simp only [values, List.map_reverse, hstr1, hval1]
  · simp only [values, hstr2, hval2, hstr1, hval1]

theorem queue_reverse_twice_witness :
    Reachable 100 scen3.2 ∧ IsSeq 100 scen3.2 ["c".toList, "a".toList, "b".toList] ∧
      (∃ vs, IsSeq 100 scen3.2 vs ∧
        ∀ fuel, vs.length ≤ fuel → ∃ h1 h2, queue_reverse fuel 100 scen3.2 = some h1 ∧
          queue_reverse fuel 100 h1 = some h2 ∧ IsSeq 100 h1 vs.reverse ∧ IsSeq 100 h2 vs) ∧
      IsSeq 100 ((queue_reverse 3 100 scen4).getD scen4)
        ["c".toList, "a".toList, "b".toList] :=
  ⟨scen3_reachable, ⟨[5, 1, 3], by decide, by decide⟩,
    queue_reverse_twice 100 scen3.2 scen3_reachable, ⟨[5, 1, 3], by decide, by decide⟩⟩

/-- C12: on a present queue that is empty (`head == NULL`), a successful insert of `s` at
the head or at the tail followed by `queue_remove_head` with a buffer of capacity
`c > length(s)` returns true both times, writes `s` and one terminator into the buffer and
nothing after them, and leaves the queue empty: `head == NULL`, the sequence read from the
head is empty, `queue_size` is `0` and the stored `size` is what it was before the insert,
so `0` when it was `0`. -/
theorem queue_insert_then_remove_head (q : Addr) (h : Heap) (s : List Char) (m1 m2 : Addr)
    (b : Nat → Char) (c : Nat) (hq : q ≠ 0) (hh : (h.recs q).head = 0)
    (hsz : (h.recs q).size < SIZE_MAX1) (h1 : m1 ≠ 0) (h2 : m2 ≠ 0)
    (hc : s.length < c) (hc2 : c < SIZE_MAX1) :
    ∀ ins ∈ [queue_insert_head q s m1 m2 h, queue_insert_tail q s m1 m2 h],
      ins.1 = true ∧ (queue_remove_head q (some b) c ins.2).1 = true ∧
      (∃ b1, (queue_remove_head q (some b) c ins.2).2.2 = some b1 ∧
        (List.range (s.length + 1)).map b1 = s ++ [NUL] ∧
        (∀ i, s.length < i → b1 i = b i) ∧
        (NUL ∉ s → ∀ fuel, s.length < fuel → readCStr b1 fuel 0 = some s)) ∧
      ((queue_remove_head q (some b) c ins.2).2.1.recs q).head = 0 ∧
      IsSeq q (queue_remove_head q (some b) c ins.2).2.1 [] ∧
      ((queue_remove_head q (some b) c ins.2).2.1.recs q).size = (h.recs q).size ∧
      ((h.recs q).size = 0 → ((queue_remove_head q (some b) c ins.2).2.1.recs q).size = 0) ∧
      queue_size q (queue_remove_head q (some b) c ins.2).2.1 = 0 := by
  intro ins hins
  have key : ins.1 = true ∧ (ins.2.recs q).head = m1 ∧ ins.2.nodes m1 = ⟨m2, 0⟩ ∧
      ins.2.strs m2 = s ∧ (ins.2.recs q).size = ((h.recs q).size + 1) % SIZE_MAX1 := by
    simp only [List.mem_cons, List.mem_singleton, List.not_mem_nil, or_false] at hins
    rcases hins with e | e
    · rw [e, queue_insert_head_ok q s m1 m2 h hq h1 h2]
      simp only [upd_same, hh, and_self]
    · rw [e, queue_insert_tail_ok q s m1 m2 h hq h1 h2]
      simp only [if_pos hh, upd_same, and_self]
  obtain ⟨hres, hhead, hnode, hstr, hsize⟩ := key
  have hv : headValue q ins.2 = s := by simp only [headValue, hhead, hnode, hstr]
  obtain ⟨r1, r2, r3, r4, r5, r6⟩ := remove_single q ins.2 s b c (h.recs q).size hq
    (by rw [hhead]; exact h1) (by rw [hhead, hnode]) hv hsz hsize hc hc2
  exact ⟨hres, r1, r2, r3, r4, r5, fun e => r5.trans e, r6⟩

theorem queue_insert_then_remove_head_witness :
    (100 : Addr) ≠ 0 ∧ (run2.2.1.recs 100).head = 0 ∧ (run2.2.1.recs 100).size = 0 ∧
      (run2.2.1.recs 100).tail ≠ 0 ∧ "abc".toList.length < 10 ∧
      ∀ ins ∈ [queue_insert_head 100 "abc".toList 3 4 run2.2.1,
          queue_insert_tail 100 "abc".toList 3 4 run2.2.1],
        ins.1 = true ∧ (queue_remove_head 100 (some fun _ => '#') 10 ins.2).1 = true ∧
        (∃ b1, (queue_remove_head 100 (some fun _ => '#') 10 ins.2).2.2 = some b1 ∧
          (List.range ("abc".toList.length + 1)).map b1 = "abc".toList ++ [NUL]) ∧
        ((queue_remove_head 100 (some fun _ => '#') 10 ins.2).2.1.recs 100).size = 0 :=
  ⟨by decide, by decide, by decide, by decide, by decide, fun ins hins =>
    have hp := queue_insert_then_remove_head 100 run2.2.1 "abc".toList 3 4 (fun _ => '#') 10
      (by decide) (by decide) (by decide) (by decide) (by decide) (by decide) (by decide)
      ins hins
    ⟨hp.1, hp.2.1, hp.2.2.1.imp fun _ hb => ⟨hb.1, hb.2.1⟩,
      hp.2.2.2.2.2.2.1 (by decide)⟩⟩

/-- C13: in every reachable heap, a successful `queue_insert_head` of `s` makes the
sequence read from the head `s` followed by the previous sequence; the new node is the
head, its `next` is the previous head, no other node and no other string is written, and
`size` is incremented by one (in `size_t`). -/
theorem queue_insert_head_prepends (q : Addr) (h : Heap) (s : List Char) (m1 m2 : Addr)
    (hr : Reachable q h) (h1 : MallocOk h.liveN m1) (h2 : MallocOk h.liveS m2)
    (hok : (queue_insert_head q s m1 m2 h).1 = true) :
    ∃ vs, IsSeq q h vs ∧ IsSeq q (queue_insert_head q s m1 m2 h).2 (s :: vs) ∧
      ((queue_insert_head q s m1 m2 h).2.recs q).head = m1 ∧
      ((queue_insert_head q s m1 m2 h).2.nodes m1).next = (h.recs q).head ∧
      (∀ a, a ≠ m1 → (queue_insert_head q s m1 m2 h).2.nodes a = h.nodes a) ∧
      (∀ a, a ≠ m2 → (queue_insert_head q s m1 m2 h).2.strs a = h.strs a) ∧
      ((queue_insert_head q s m1 m2 h).2.recs q).size = ((h.recs q).size + 1) % SIZE_MAX1 ∧
      ((h.recs q).size + 1 < SIZE_MAX1 →
        ((queue_insert_head q s m1 m2 h).2.recs q).size = (h.recs q).size + 1) := by
  have hq := reachable_ne_zero hr
  have hnf : ¬ (m1 = 0 ∨ m2 = 0) := fun hf => by
    rw [queue_insert_head_fail q s m1 m2 h h1 (Or.inr hf)] at hok
    cases hok
  have n1 : m1 ≠ 0 := fun e => hnf (Or.inl e)
  have n2 : m2 ≠ 0 := fun e => hnf (Or.inr e)
  obtain ⟨l, hc, hl⟩ := reachable_chainInv hr
  have ho := reachable_ownInv hr
  have hf1 : h.liveN m1 = false := h1.resolve_left n1
  have hf2 : h.liveS m2 = false := h2.resolve_left n2
  have hnm : m1 ∉ l := fun hmem => by simpa [hf1] using hl m1 hmem
  have hvm : ∀ a ∈ l, (h.nodes a).value ≠ m2 := fun a ha e => by
    have := ho.1 a (hl a ha)
    rw [e, hf2] at this
    cases this
  rw [queue_insert_head_ok q s m1 m2 h hq n1 n2]
  refine ⟨values h l, ⟨l, hc, rfl⟩, ⟨m1 :: l, ?_, ?_⟩, ?_, ?_, ?_, ?_, ?_, ?_⟩
  · simp only [upd_same]
    refine ⟨rfl, n1, ?_⟩
    simp only [upd_same]
    exact chain_congr hc (fun a ha => by
      rw [upd_other]; rintro rfl; exact hnm ha)
  · simp only [values, List.map_cons, upd_same, List.cons.injEq, true_and]
    apply List.map_congr_left
    intro a ha
    have e1 : a ≠ m1 := fun e => hnm (e ▸ ha)
    simp only [upd_other _ _ e1, upd_other _ _ (hvm a ha)]
  · simp only [upd_same]
  · simp only [upd_same]
  · intro a ha
    simp only [upd_other _ _ ha]
  · intro a ha
    simp only [upd_other _ _ ha]
  · simp only [upd_same]
  · intro hlt
    simp only [upd_same]
    exact Nat.mod_eq_of_lt hlt

theorem queue_insert_head_prepends_witness :
    Reachable 100 scen2.2 ∧ MallocOk scen2.2.liveN 5 ∧ MallocOk scen2.2.liveS 6 ∧
      scen3.1 = true ∧ IsSeq 100 scen2.2 ["a".toList, "b".toList] ∧
      (∃ vs, IsSeq 100 scen2.2 vs ∧ IsSeq 100 scen3.2 ("c".toList :: vs)) ∧
      queue_size 100 scen3.2 = 3 :=
  ⟨reachableTail_reachable scen2_reachableTail, Or.inr (by decide), Or.inr (by decide),
    by decide, ⟨[1, 3], by decide, by decide⟩,
    (queue_insert_head_prepends 100 scen2.2 "c".toList 5 6
      (reachableTail_reachable scen2_reachableTail) (Or.inr (by decide)) (Or.inr (by decide))
      (by decide)).imp fun _ hv => ⟨hv.1, hv.2.1⟩,
    by decide⟩

/-- C14: on a `NULL` queue pointer `queue_insert_head`, `queue_insert_tail` and
`queue_remove_head` return false, `queue_size` returns `0` and `queue_reverse` returns; the
heap and the buffer are the ones before the call, whatever `malloc` would have
returned. -/
theorem queue_null_pointer (s : List Char) (m1 m2 : Addr) (buf : Option (Nat → Char))
    (c fuel : Nat) (h : Heap) :
    queue_insert_head 0 s m1 m2 h = (false, h) ∧ queue_insert_tail 0 s m1 m2 h = (false, h) ∧
      queue_remove_head 0 buf c h = (false, h, buf) ∧ queue_size 0 h = 0 ∧
      queue_reverse fuel 0 h = some h :=
  ⟨by simp [queue_insert_head], by simp [queue_insert_tail],
    queue_remove_head_fail 0 buf c h (Or.inl rfl), by simp [queue_size],
    queue_reverse_noop fuel 0 h (Or.inl rfl)⟩

/-- C15: the claim says that on every reachable queue that is not empty `queue_reverse`
swaps `head` and `tail`. Here `queue_reverse` is run on two reachable queues whose `tail`
is stale: afterwards `tail` is the old head, but `head` is the last node of the chain and
not the node that `tail` referred to. In the first run `head == 3` and `tail == 1` (a
released node) become `head == 3` and `tail == 3`; in the second, where no released cell is
touched, `head == 1` and `tail == 1` on the chain `1, 3` become `head == 3` and
`tail == 1`. -/
theorem queue_reverse_with_stale_tail :
    (Reachable 100 run3.2 ∧ (run3.2.recs 100).size = 1 ∧ (run3.2.recs 100).head = 3 ∧
      (run3.2.recs 100).tail = 1 ∧
      run3rev.map (fun h => ((h.recs 100).head, (h.recs 100).tail)) = some (3, 3)) ∧
    (Reachable 100 runB4.2 ∧ (runB4.2.recs 100).size = 2 ∧
      Chain runB4.2.nodes (runB4.2.recs 100).head [1, 3] ∧ (runB4.2.recs 100).tail = 1 ∧
      runB4.2.liveN 1 = true ∧ runB4.2.liveN 3 = true ∧
      runB4rev.map (fun h => ((h.recs 100).head, (h.recs 100).tail)) = some (3, 1)) :=
  ⟨⟨run3_reachable, by decide⟩, ⟨runB4_reachable, by decide⟩⟩

/-- C16: the claim says that `queue_remove_head` writes at most `bufsize` bytes into the
buffer, also for `bufsize == 0`. Here the code is run on the reachable queue
`["b", "a", "c"]` with a buffer filled with `'#'` and `bufsize == 0`: `bufsize - 1` is
`2 ^ 64 - 1`, the whole of `"b"` is copied, and two bytes are written, `'b'` at offset `0`
and the terminator at offset `1`. -/
theorem queue_remove_head_zero_bufsize :
    Reachable 100 scen4 ∧ (scen4.recs 100).head ≠ 0 ∧ headValue 100 scen4 = "b".toList ∧
      (0 + (SIZE_MAX1 - 1)) % SIZE_MAX1 = 18446744073709551615 ∧ scen5zero.1 = true ∧
      scen5zero.2.2.map (fun b1 => (List.range 3).map b1) = some ['b', NUL, '#'] ∧
      scen5zero.2.2.map (fun b1 => decide (b1 0 = '#')) = some false ∧
      scen5zero.2.2.map (fun b1 => decide (b1 1 = '#')) = some false :=
  ⟨scen4_reachable, by decide⟩

/-- C17: in every heap reachable by `queue_insert_tail`, `queue_remove_head` and
`queue_reverse` only, the chain from the head is finite without a repeated node, has
exactly `size` nodes, all of them live, and ends at `tail` when `head` is not `NULL`; and
every list element that the next `queue_insert_tail`, `queue_remove_head` or
`queue_reverse` dereferences is live when it is dereferenced, as is the string of the node
that `queue_remove_head` reads and releases. -/
theorem tail_runs_are_safe (q : Addr) (h : Heap) (hr : ReachableTail q h) :
    (∃ l, Chain h.nodes (h.recs q).head l ∧ l.Nodup ∧ l.length = (h.recs q).size ∧
      (∀ a ∈ l, h.liveN a = true) ∧
      ((h.recs q).head ≠ 0 → l.getLast? = some (h.recs q).tail)) ∧
    (∀ m1 m2, ∀ a ∈ queue_insert_tail_touches q m1 m2 h, upd h.liveN m1 true a = true) ∧
    (∀ a ∈ queue_remove_head_touches q h,
      h.liveN a = true ∧ h.liveS (h.nodes a).value = true) ∧
    (∀ fuel, ∀ a ∈ queue_reverse_touches fuel q h, h.liveN a = true) := by
  obtain ⟨l, hc, hlen, hl, hlast⟩ := reachableTail_tailInv hr
  have ho := reachable_ownInv (reachableTail_reachable hr)
  have hne : (h.recs q).head ≠ 0 → l ≠ [] := fun hh e => hh (by rw [e] at hc; exact hc)
  have hhead : (h.recs q).head ≠ 0 → h.liveN (h.recs q).head = true := fun hh => by
    have := chain_head? hc hh
    exact (hl _ (List.mem_of_mem_head? this)).1
  have htail : (h.recs q).head ≠ 0 → h.liveN (h.recs q).tail = true := fun hh =>
    (hl _ (List.mem_of_mem_getLast? (hlast (hne hh)))).1
  refine ⟨⟨l, hc, chain_nodup hc, hlen, fun a ha => (hl a ha).1, fun hh => hlast (hne hh)⟩,
    ?_, ?_, ?_⟩
  · intro m1 m2 a ha
    unfold queue_insert_tail_touches at ha
    split at ha
    · cases ha
    · have hcases : a = m1 ∨ ((h.recs q).head ≠ 0 ∧ a = (h.recs q).tail) := by
        split at ha
        · exact Or.inl (by simpa using ha)
        · rename_i hh
          have : a = m1 ∨ a = (h.recs q).tail := by simpa using ha
          exact this.imp id (fun e => ⟨hh, e⟩)
      rcases hcases with e | ⟨hh, e⟩
      · rw [e, upd_same]
      · by_cases e1 : a = m1
        · rw [e1, upd_same]
        · rw [upd_other _ _ e1, e]; exact htail hh
  · intro a ha
    unfold queue_remove_head_touches at ha
    split at ha
    · cases ha
    · rename_i hn
      have e : a = (h.recs q).head := by simpa using ha
      have hh : (h.recs q).head ≠ 0 := fun e0 => hn (Or.inr e0)
      rw [e]
      exact ⟨hhead hh, ho.1 _ (hhead hh)⟩
  · intro fuel a ha
    unfold queue_reverse_touches at ha
    split at ha
    · cases ha
    · exact (hl a (queue_reverse_loop_touches_mem l h.nodes 0 _ fuel hc a ha)).1

theorem tail_runs_are_safe_witness :
    ReachableTail 100 scen2.2 ∧ (scen2.2.recs 100).head ≠ 0 ∧
      queue_reverse_touches 2 100 scen2.2 = [1, 3] ∧
      queue_insert_tail_touches 100 5 6 scen2.2 = [5, 3] ∧
      queue_remove_head_touches 100 scen2.2 = [1] ∧
      (∃ l, Chain scen2.2.nodes (scen2.2.recs 100).head l ∧ l.Nodup ∧
        l.length = (scen2.2.recs 100).size ∧ (∀ a ∈ l, scen2.2.liveN a = true) ∧
        ((scen2.2.recs 100).head ≠ 0 → l.getLast? = some (scen2.2.recs 100).tail)) ∧
      (∀ fuel, ∀ a ∈ queue_reverse_touches fuel 100 scen2.2, scen2.2.liveN a = true) :=
  ⟨scen2_reachableTail, by decide, by decide, by decide, by decide,
    (tail_runs_are_safe 100 scen2.2 scen2_reachableTail).1,
    (tail_runs_are_safe 100 scen2.2 scen2_reachableTail).2.2.2⟩

end Queue
